import Mathlib

/-! paramHelp: RPC reply handling, parameter registry lookups and value serialisation

A shallow embedding of

* `uTest_ParamHelp_module::respond` (src/test/uTest.cpp),
* `ParamHelperBase::hasParam`, `hasCommand`, `getParamProxy`
  (include/paramHelp/paramHelperBase.h),
* `ParamProxyBasic<double>::getAsString` and `ParamProxyBasic<bool>::getAsString`
  (src/paramProxyBasic.cpp),
* the descriptor table of src/test/uTest_constant.h,

followed by the properties established about them.
-/

namespace paramHelp

/-! ## Bottles and C strings -/

/-- One element of a YARP bottle (only the kinds of element used here). -/
inductive Value where
  | vInt (i : Int)
  | vString (s : String)
deriving DecidableEq, Repr

/-- A YARP bottle: an ordered sequence of elements. -/
abbrev Bottle := List Value

/-- Number of elements, `Bottle::size()`. -/
def Bottle.size (b : Bottle) : Nat := b.length

/-- The conversion `std::string::c_str()` followed by reading the result back as a
NUL-terminated C string: the characters before the first NUL. -/
def c_str (s : String) : String := ⟨s.data.takeWhile (fun c => c != '\x00')⟩

/-- Appends a string element, `Bottle::addString(const char*)`: the argument is read
as a C string. -/
def Bottle.addString (b : Bottle) (s : String) : Bottle := b ++ [Value.vString (c_str s)]

/-! ## The server mutex, with a ghost trace of the calls made -/

/-- What `respond` did, in order; every action other than `lock`/`unlock` records
whether the mutex was held when it ran. -/
inductive Event where
  | lock
  | unlock
  | processRpcCommand (held : Bool)
  | addNotRecognized (held : Bool)
  | addReceived (held : Bool)
deriving DecidableEq, Repr

/-- The part of `ParamHelperServer` that `respond` touches besides
`processRpcCommand`: its mutex (`held`) and a ghost trace. -/
structure ParamHelperServer where
  held : Bool
  trace : List Event
deriving DecidableEq, Repr

/-- Modelled from the spec: `ParamHelperServer::lock()` is declared in
paramHelperServer.h, which is not among the sources; the header documentation says
that `lock()` takes the mutex associated to the object. The call returns once the
mutex has been taken; waiting for another holder is outside this sequential model. -/
def ParamHelperServer.lock (s : ParamHelperServer) : ParamHelperServer :=
  { held := true, trace := s.trace ++ [Event.lock] }

/-- Modelled from the spec: `ParamHelperServer::unlock()` (paramHelperServer.h is not
among the sources) releases the mutex associated to the object. -/
def ParamHelperServer.unlock (s : ParamHelperServer) : ParamHelperServer :=
  { held := false, trace := s.trace ++ [Event.unlock] }

/-- Ghost step: record an action together with the state of the mutex. -/
def ParamHelperServer.note (s : ParamHelperServer) (e : Bool → Event) : ParamHelperServer :=
  { s with trace := s.trace ++ [e s.held] }

/-- The text `"Command <cmd> not recognized."` built at uTest.cpp line 81. -/
def notRecognizedMsg (text : String) : String :=
  "Command " ++ c_str text ++ " not recognized."

/-- The text `"Command <cmd> received."` built at uTest.cpp line 86. -/
def receivedMsg (text : String) : String :=
  "Command " ++ c_str text ++ " received."

/-- The handler `uTest_ParamHelp_module::respond`. `toString` is `Bottle::toString`
and `processRpcCommand` is `ParamHelperServer::processRpcCommand`, which gets the
request and the reply and gives back its boolean result and the reply as it left
it; both are parameters. The result is the server (mutex and trace), the returned
boolean and the reply. -/
def respond (toString : Bottle → String)
    (processRpcCommand : Bottle → Bottle → Bool × Bottle)
    (paramHelper : ParamHelperServer) (cmd reply : Bottle) :
    ParamHelperServer × Bool × Bottle :=
  let s1 := paramHelper.lock
  let r := processRpcCommand cmd reply
  let s2 := s1.note Event.processRpcCommand
  let p3 : ParamHelperServer × Bottle :=
    if !r.1 then
      (s2.note Event.addNotRecognized, r.2.addString (notRecognizedMsg (toString cmd)))
    else (s2, r.2)
  let s4 := p3.1.unlock
  -- if reply is empty put something into it
  if p3.2.size == 0 then
    (s4.note Event.addReceived, true, p3.2.addString (receivedMsg (toString cmd)))
  else (s4, true, p3.2)

/-! ## The registry of `ParamHelperBase` -/

/-- A `std::map<int, V>` as an association list: at most one entry per key. -/
abbrev IntMap (V : Type) := List (Int × V)

/-- The lookup `std::map::find`: the value stored under the key, if any. -/
def IntMap.find {V : Type} (m : IntMap V) (id : Int) : Option V :=
  match m with
  | [] => none
  | (k, v) :: rest => if k = id then some v else IntMap.find rest id

/-- The two maps of `ParamHelperBase`. A stored proxy is a pointer
(`ParamProxyInterface*`): `none` is the null pointer. -/
structure ParamHelperBase (P C : Type) where
  paramList : IntMap (Option P)
  cmdList : IntMap C

/-- `hasParam(id)`: `paramList.find(id) != paramList.end()`. -/
def ParamHelperBase.hasParam {P C : Type} (h : ParamHelperBase P C) (id : Int) : Bool :=
  (h.paramList.find id).isSome

/-- `hasCommand(id)`: `cmdList.find(id) != cmdList.end()`. -/
def ParamHelperBase.hasCommand {P C : Type} (h : ParamHelperBase P C) (id : Int) : Bool :=
  (h.cmdList.find id).isSome

/-- `std::map::operator[]`: a reference to the value under `id`; when the key is
absent a value-initialised element (`dflt`) is inserted first. -/
def IntMap.index {V : Type} (m : IntMap V) (id : Int) (dflt : V) : V × IntMap V :=
  match m.find id with
  | some v => (v, m)
  | none => (dflt, m ++ [(id, dflt)])

/-- `getParamProxy(id)`: `return paramList[id];`. Returns the pointer and the
registry as the call leaves it. -/
def ParamHelperBase.getParamProxy {P C : Type} (h : ParamHelperBase P C) (id : Int) :
    Option P × ParamHelperBase P C :=
  let r := h.paramList.index id none
  (r.1, { h with paramList := r.2 })

/-! ## Parameter proxies and their textual form -/

/-- The fields of `ParamProxyBasic<T>` read by `getAsString`: the element count
`size` (an `int` in the loop condition) and the pointer `value`, as the function
from an index to the element stored there. -/
structure ParamProxyBasic (T : Type) where
  size : Int
  value : Nat → T

/-- The elements `value[0] .. value[size-1]`, in index order. -/
def ParamProxyBasic.values {T : Type} (p : ParamProxyBasic T) : List T :=
  (List.range p.size.toNat).map p.value

/-- The proxy holding the elements of a list. -/
def ParamProxyBasic.ofList {T : Type} (dflt : T) (v : List T) : ParamProxyBasic T :=
  { size := (v.length : Int), value := fun i => v.getD i dflt }

/-- Stream insertion of a `bool` under `std::boolalpha`. -/
def boolalpha (b : Bool) : String := if b then "true" else "false"

/-- The specialisation `ParamProxyBasic<bool>::getAsString`. The loop
`for(int i=1; i<size; i++)` visits `i = 1, .., size-1`. -/
def ParamProxyBasic.getAsString_bool (p : ParamProxyBasic Bool) : String :=
  if p.size = 0 then ""
  else
    (List.range' 1 (p.size - 1).toNat).foldl
      (fun ss i => ss ++ " " ++ boolalpha (p.value i)) (boolalpha (p.value 0))

/-! ### Doubles and `operator<<` under `std::showpoint` -/

/-- An IEEE-754 double by its value: a finite one is `(-1)^neg * mant * 2^exp`. -/
inductive Double where
  | finite (neg : Bool) (mant : Nat) (exp : Int)
  | inf (neg : Bool)
  | nan (neg : Bool)
deriving DecidableEq, Repr

/-- The finite values a binary64 can hold: 53 bits of significand, exponent of the
unit in the last place between -1074 and 971. -/
def Double.isBinary64 : Double → Bool
  | Double.finite _ m e => decide (m < 2 ^ 53) && decide (-1074 ≤ e) && decide (e ≤ 971)
  | _ => true

/-- Whether the double is finite. -/
def Double.isFinite : Double → Bool
  | Double.finite _ _ _ => true
  | _ => false

/-- The last `w` decimal digits of `n`, most significant first. -/
def digitsFixed : Nat → Nat → List Char
  | 0, _ => []
  | w + 1, n => digitsFixed w (n / 10) ++ [Nat.digitChar (n % 10)]

/-- The decimal digits of `n` without leading zeros (`fuel` bounds their number). -/
def decDigits : Nat → Nat → List Char
  | 0, _ => []
  | fuel + 1, n =>
    if n < 10 then [Nat.digitChar n] else decDigits fuel (n / 10) ++ [Nat.digitChar (n % 10)]

/-- The digits of a printf exponent: at least two. -/
def expDigits (x : Nat) : List Char :=
  if x < 100 then digitsFixed 2 x else decDigits (x + 1) x

/-- Division rounded to nearest, ties to even (the default rounding mode). -/
def roundHalfEven (n d : Nat) : Nat :=
  let q := n / d
  let r := n % d
  if 2 * r < d then q
  else if d < 2 * r then q + 1
  else if q % 2 = 0 then q else q + 1

/-- The largest `k` with `den * 10^k ≤ num`, searched upwards from `k`. -/
def expUp : Nat → Nat → Nat → Nat → Nat
  | 0, _, _, k => k
  | fuel + 1, num, den, k =>
    if num < den * 10 ^ (k + 1) then k else expUp fuel num den (k + 1)

/-- The least `k` with `den ≤ num * 10^k`, searched upwards from `k`. -/
def expDown : Nat → Nat → Nat → Nat → Nat
  | 0, _, _, k => k
  | fuel + 1, num, den, k =>
    if den ≤ num * 10 ^ k then k else expDown fuel num den (k + 1)

/-- The decimal exponent `X` with `10^X ≤ num/den < 10^(X+1)`, for `0 < num`. -/
def decExponent (num den : Nat) : Int :=
  if den ≤ num then (expUp num num den 0 : Int)
  else - (expDown den num den 1 : Int)

/-- The value `num/den` divided by `10^(X-5)` and rounded to an integer. -/
def scaleRound (num den : Nat) (X : Int) : Nat :=
  roundHalfEven (num * 10 ^ (5 - X).toNat) (den * 10 ^ (X - 5).toNat)

/-- The six significant decimal digits `D` and the decimal exponent `X` of the
magnitude `mant * 2^exp`, as a style-E conversion with precision 5 finds them:
the value rounds to `D * 10^(X-5)` with `100000 ≤ D ≤ 999999` (zero: `D = 0, X = 0`). -/
def decimal6 (mant : Nat) (exp : Int) : Nat × Int :=
  if mant = 0 then (0, 0)
  else
    let num := mant * 2 ^ exp.toNat
    let den := 2 ^ (-exp).toNat
    let X := decExponent num den
    let D := scaleRound num den X
    if D = 1000000 then (100000, X + 1) else (D, X)

/-- The conversion `%#g` with precision 6 from the digits `D` and the exponent `X`:
style f with precision `5 - X` when `-4 ≤ X < 6`, style e with precision 5
otherwise; the flag `#` keeps the trailing zeros and the decimal point. -/
def renderG (D : Nat) (X : Int) : List Char :=
  let ds := digitsFixed 6 D
  if 0 ≤ X ∧ X < 6 then ds.take (X.toNat + 1) ++ ['.'] ++ ds.drop (X.toNat + 1)
  else if -4 ≤ X ∧ X < 0 then ['0', '.'] ++ List.replicate ((-X).toNat - 1) '0' ++ ds
  else
    ds.take 1 ++ ['.'] ++ ds.drop 1 ++ ['e', if X < 0 then '-' else '+'] ++ expDigits X.natAbs

/-- The sign written before a negative value. -/
def signChars (neg : Bool) : List Char := if neg then ['-'] else []

/-- Whether the magnitude `mant * 2^exp` has six integer digits that all round up,
that is `999999.5 ≤ mant * 2^exp < 10^6`: the conversion starts in style f with six
integer digits and the rounding carries into a seventh. -/
def carrySix (mant : Nat) (exp : Int) : Bool :=
  decide (mant ≠ 0) &&
    decide (decExponent (mant * 2 ^ exp.toNat) (2 ^ (-exp).toNat) = 5) &&
    decide (scaleRound (mant * 2 ^ exp.toNat) (2 ^ (-exp).toNat) 5 = 1000000)

/-- The digits written for the magnitude `mant * 2^exp` by the conversion `%#g` with
precision 6 as the GNU C library performs it: the rendering of the six rounded
digits, except after the carry out of six integer digits, where the library
switches to style e and drops the zeros after the point, writing `1.e+06`. -/
def showpointDigits (mant : Nat) (exp : Int) : List Char :=
  if carrySix mant exp then ['1', '.', 'e', '+', '0', '6']
  else renderG (decimal6 mant exp).1 (decimal6 mant exp).2

/-- Stream insertion `ss << std::showpoint << x` of a double into a fresh
`std::stringstream`: default precision 6, no floatfield flag, that is `%#g`. -/
def showpoint : Double → String
  | Double.finite neg m e => ⟨signChars neg ++ showpointDigits m e⟩
  | Double.inf neg => ⟨signChars neg ++ ['i', 'n', 'f']⟩
  | Double.nan neg => ⟨signChars neg ++ ['n', 'a', 'n']⟩

/-- The specialisation `ParamProxyBasic<double>::getAsString`. -/
def ParamProxyBasic.getAsString_double (p : ParamProxyBasic Double) : String :=
  if p.size = 0 then ""
  else
    (List.range' 1 (p.size - 1).toNat).foldl
      (fun ss i => ss ++ " " ++ showpoint (p.value i)) (showpoint (p.value 0))

/-! ### The descriptor table of the test module (uTest_constant.h) -/

/-- The columns of one row of `uTest_ParamDescr` (the I/O access column apart). -/
structure ParamDescr (T : Type) where
  name : String
  id : Int
  size : Int
  defaultValue : T
  description : String

/-- The constant `uTest_DEFAULT_DOUBLE(5.0)`. -/
def uTest_DEFAULT_DOUBLE : Double := Double.finite false 5 0

/-- The first enumerator of `uTest_ParamHelp_ParamId`. -/
def PARAM_ID_DOUBLE : Int := 0

/-- The row `param_double` of `uTest_ParamDescr`. -/
def uTest_ParamDescr_double : ParamDescr Double :=
  { name := "param_double", id := PARAM_ID_DOUBLE, size := 1,
    defaultValue := uTest_DEFAULT_DOUBLE, description := "A double param" }

/-- The proxy of a descriptor whose elements all hold `v`. -/
def ParamDescr.holding {T : Type} (d : ParamDescr T) (v : T) : ParamProxyBasic T :=
  { size := d.size, value := fun _ => v }

/-- The rational value of a finite double (`0` for the others). -/
def Double.toRat : Double → ℚ
  | Double.finite neg m e => (if neg then -1 else 1) * (m : ℚ) * (2 : ℚ) ^ e
  | _ => 0

/-- Fixed-point notation: an optional minus sign, at least one digit, one decimal
point, then digits only (so no exponent part). -/
def isFixedPoint (s : List Char) : Bool :=
  let body := if s.head? = some '-' then s.tail else s
  let ip := body.takeWhile Char.isDigit
  let rest := body.dropWhile Char.isDigit
  !ip.isEmpty && rest.head? == some '.' && rest.tail.all Char.isDigit

/-! ### Reading a serialised bool vector back (the inverse the round trip is stated against) -/

/-- Splitting a character sequence at every single space. -/
def splitOnSpace : List Char → List (List Char)
  | [] => [[]]
  | c :: cs =>
    if c = ' ' then [] :: splitOnSpace cs
    else
      match splitOnSpace cs with
      | [] => [[c]]
      | t :: ts => (c :: t) :: ts

/-- One token of a bool vector: `"true"` is true, `"false"` is false, anything else
is not a bool. -/
def parseBoolToken (t : List Char) : Option Bool :=
  if t = "true".data then some true
  else if t = "false".data then some false
  else none

/-- Reading every piece as a bool; fails if one piece is not a bool. -/
def parseBoolTokens : List (List Char) → Option (List Bool)
  | [] => some []
  | t :: ts =>
    match parseBoolToken t, parseBoolTokens ts with
    | some b, some bs => some (b :: bs)
    | _, _ => none

/-- The parse of the round trip on a whole string: the empty string is the empty
vector, any other string is split on single spaces and every piece read as a bool. -/
def parseBoolVector (s : String) : Option (List Bool) :=
  if s = "" then some [] else parseBoolTokens (splitOnSpace s.data)

/-! ### Reading a serialised double vector back -/

/-- The natural number written by a sequence of decimal digits. -/
def readNat (l : List Char) : Nat := l.foldl (fun acc c => 10 * acc + (c.toNat - 48)) 0

/-- The sign factor of a value. -/
def signFactor (neg : Bool) : ℚ := if neg then -1 else 1

/-- Reading a decimal numeral: an optional minus sign, digits, a decimal point,
digits, and optionally `e`, a sign and the digits of a decimal exponent. -/
def readDecimal (s : List Char) : Option ℚ :=
  let body := if s.head? = some '-' then s.tail else s
  let ip := body.takeWhile Char.isDigit
  let r1 := body.dropWhile Char.isDigit
  let fr := r1.tail.takeWhile Char.isDigit
  let r2 := r1.tail.dropWhile Char.isDigit
  let mant : ℚ := signFactor (decide (s.head? = some '-')) * (readNat (ip ++ fr) : ℚ)
    * (10 : ℚ) ^ (-(fr.length : Int))
  if ip.isEmpty || r1.head? != some '.' then none
  else if r2.isEmpty then some mant
  else if r2.head? != some 'e' || r2.tail.tail.isEmpty || !r2.tail.tail.all Char.isDigit then none
  else if r2.tail.head? = some '+' then some (mant * (10 : ℚ) ^ (readNat r2.tail.tail : Int))
  else if r2.tail.head? = some '-' then some (mant * (10 : ℚ) ^ (-(readNat r2.tail.tail : Int)))
  else none

/-- Reading every piece as a decimal numeral; fails if one piece is not one. -/
def readDecimals : List (List Char) → Option (List ℚ)
  | [] => some []
  | t :: ts =>
    match readDecimal t, readDecimals ts with
    | some x, some xs => some (x :: xs)
    | _, _ => none

/-- The parse of the round trip for doubles: the empty string is the empty vector,
any other string is split on single spaces and every piece read as a decimal. -/
def parseDoubleVector (s : String) : Option (List ℚ) :=
  if s = "" then some [] else readDecimals (splitOnSpace s.data)

/-- The value a finite double is written as: its sign and its magnitude rounded to
six significant decimal digits. -/
def Double.round6 : Double → ℚ
  | Double.finite neg m e =>
    signFactor neg * ((decimal6 m e).1 : ℚ) * (10 : ℚ) ^ ((decimal6 m e).2 - 5)
  | _ => 0

/-! ## Properties of `respond` -/

section Respond

/-- A text without NUL is unchanged by the conversion to a C string. -/
theorem c_str_of_nul_free (s : String) (h : '\x00' ∉ s.data) : c_str s = s := by
  have hall : ∀ c ∈ s.data, (c != '\x00') = true := by
    intro c hc
    have hne : c ≠ '\x00' := fun hEq => h (hEq ▸ hc)
    simpa using hne
  show String.mk (s.data.takeWhile (fun c => c != '\x00')) = s
  rw [List.takeWhile_eq_self_iff.mpr hall]

/-- The result of the conversion to a C string holds no NUL. -/
theorem c_str_nul_free (s : String) : '\x00' ∉ (c_str s).data := by
  intro h
  have h2 := List.mem_takeWhile_imp h
  simp at h2

/-- The conversion to a C string is idempotent. -/
theorem c_str_idem (s : String) : c_str (c_str s) = c_str s :=
  c_str_of_nul_free _ (c_str_nul_free s)

/-- The message of line 81 is a C string already. -/
theorem c_str_notRecognizedMsg (t : String) :
    c_str (notRecognizedMsg t) = notRecognizedMsg t := by
  apply c_str_of_nul_free
  have h := c_str_nul_free t
  simp only [notRecognizedMsg, String.data_append, List.mem_append, not_or]
  exact ⟨⟨by decide, h⟩, by decide⟩

/-- The message of line 86 is a C string already. -/
theorem c_str_receivedMsg (t : String) : c_str (receivedMsg t) = receivedMsg t := by
  apply c_str_of_nul_free
  have h := c_str_nul_free t
  simp only [receivedMsg, String.data_append, List.mem_append, not_or]
  exact ⟨⟨by decide, h⟩, by decide⟩

/-- The reply of `respond` in closed form. -/
theorem respond_reply (toString : Bottle → String)
    (proc : Bottle → Bottle → Bool × Bottle) (s : ParamHelperServer) (cmd reply : Bottle) :
    (respond toString proc s cmd reply).2.2 =
      if (proc cmd reply).1 = false then
        (proc cmd reply).2 ++ [Value.vString (notRecognizedMsg (toString cmd))]
      else if (proc cmd reply).2 = [] then [Value.vString (receivedMsg (toString cmd))]
      else (proc cmd reply).2 := by
  unfold respond
  rcases hpr : proc cmd reply with ⟨ok, r1⟩
  cases ok
  · simp [Bottle.addString, Bottle.size, c_str_notRecognizedMsg]
  · cases r1 with
    | nil => simp [Bottle.addString, Bottle.size, c_str_receivedMsg]
    | cons a t => simp [Bottle.addString, Bottle.size]

/-- The boolean returned by `respond`. -/
theorem respond_returns (toString : Bottle → String)
    (proc : Bottle → Bottle → Bool × Bottle) (s : ParamHelperServer) (cmd reply : Bottle) :
    (respond toString proc s cmd reply).2.1 = true := by
  unfold respond
  simp only []
  split <;> split <;> rfl

/-- The trace and mutex left by `respond` in closed form. -/
theorem respond_server (toString : Bottle → String)
    (proc : Bottle → Bottle → Bool × Bottle) (s : ParamHelperServer) (cmd reply : Bottle) :
    (respond toString proc s cmd reply).1 =
      { held := false,
        trace := s.trace ++ [Event.lock, Event.processRpcCommand true]
          ++ (if (proc cmd reply).1 = false then [Event.addNotRecognized true] else [])
          ++ [Event.unlock]
          ++ (if (proc cmd reply).1 = true ∧ (proc cmd reply).2 = []
              then [Event.addReceived false] else []) } := by
  unfold respond
  rcases hpr : proc cmd reply with ⟨ok, r1⟩
  cases ok
  · simp [Bottle.addString, Bottle.size, ParamHelperServer.lock, ParamHelperServer.unlock,
      ParamHelperServer.note]
  · cases r1 with
    | nil =>
      simp [Bottle.addString, Bottle.size, ParamHelperServer.lock, ParamHelperServer.unlock,
        ParamHelperServer.note]
    | cons a t =>
      simp [Bottle.addString, Bottle.size, ParamHelperServer.lock, ParamHelperServer.unlock,
        ParamHelperServer.note]

/-- The two messages differ whatever the request text. -/
theorem receivedMsg_ne_notRecognizedMsg (t : String) :
    receivedMsg t ≠ notRecognizedMsg t := by
  intro h
  have h2 := congrArg String.data h
  simp only [receivedMsg, notRecognizedMsg, String.data_append, List.append_assoc] at h2
  have h3 := List.append_cancel_left (List.append_cancel_left h2)
  revert h3
  decide

end Respond

section RespondClaims

/-- C1: whatever the request, the initial reply and the behaviour of
`processRpcCommand` (its boolean and what it leaves in the reply), the reply left
by `respond` holds at least one element and `respond` returns true. -/
theorem respond_reply_has_element (toString : Bottle → String)
    (proc : Bottle → Bottle → Bool × Bottle) (s : ParamHelperServer) (cmd reply : Bottle) :
    1 ≤ (respond toString proc s cmd reply).2.2.size ∧
      (respond toString proc s cmd reply).2.1 = true := by
  refine ⟨?_, respond_returns toString proc s cmd reply⟩
  rw [respond_reply]
  split
  · simp [Bottle.size]
  · split
    · simp [Bottle.size]
    · rename_i hne
      exact List.length_pos.mpr hne

/-- C2: when `processRpcCommand` returns false, the reply left by `respond` is the
reply `processRpcCommand` left, unchanged, followed by exactly one string element,
the text `"Command "`, the text of the request verbatim, `" not recognized."`;
when it returns true the reply is the one `processRpcCommand` left (or, if that is
empty, the single filler `"Command <cmd> received."`) and holds no element added
for non-recognition. The text of the request is a C string (it holds no NUL). -/
theorem respond_not_recognized (toString : Bottle → String)
    (proc : Bottle → Bottle → Bool × Bottle) (s : ParamHelperServer) (cmd reply : Bottle)
    (htext : '\x00' ∉ (toString cmd).data) :
    ((proc cmd reply).1 = false →
        (respond toString proc s cmd reply).2.2 =
          (proc cmd reply).2 ++
            [Value.vString ("Command " ++ toString cmd ++ " not recognized.")]) ∧
      ((proc cmd reply).1 = true →
        (respond toString proc s cmd reply).2.2 =
            (if (proc cmd reply).2 = []
              then [Value.vString ("Command " ++ toString cmd ++ " received.")]
              else (proc cmd reply).2) ∧
          "Command " ++ toString cmd ++ " received." ≠
            "Command " ++ toString cmd ++ " not recognized.") := by
  have hn : notRecognizedMsg (toString cmd)
      = "Command " ++ toString cmd ++ " not recognized." := by
    simp only [notRecognizedMsg, c_str_of_nul_free _ htext]
  have hr : receivedMsg (toString cmd) = "Command " ++ toString cmd ++ " received." := by
    simp only [receivedMsg, c_str_of_nul_free _ htext]
  refine ⟨fun hf => ?_, fun ht => ⟨?_, ?_⟩⟩
  · rw [respond_reply, if_pos hf, hn]
  · rw [respond_reply, if_neg (by simp [ht]), hr]
  · rw [← hn, ← hr]
    exact receivedMsg_ne_notRecognizedMsg _

/-- Witness of C2: the request `get x`, not recognized, against an empty reply. -/
theorem respond_not_recognized_witness :
    (respond (fun _ => "get x") (fun _ r => (false, r)) ⟨false, []⟩
        [Value.vString "get", Value.vString "x"] []).2.2 =
      [] ++ [Value.vString ("Command " ++ "get x" ++ " not recognized.")] :=
  (respond_not_recognized (fun _ => "get x") (fun _ r => (false, r)) ⟨false, []⟩
    [Value.vString "get", Value.vString "x"] [] (by decide)).1 rfl

/-- C10: `respond` is one critical section. Its trace is `lock`, then
`processRpcCommand` with the mutex held, then (only when the command was not
recognized) the appending of the "not recognized" message with the mutex held, then
`unlock`, then (only when the reply is still empty) the filler message with the
mutex released; `lock` and `unlock` occur once each, and a mutex free on entry is
free again on return. -/
theorem respond_critical_section (toString : Bottle → String)
    (proc : Bottle → Bottle → Bool × Bottle) (s : ParamHelperServer) (cmd reply : Bottle)
    (hfree : s.held = false) :
    (respond toString proc s cmd reply).1.trace =
        s.trace ++ [Event.lock, Event.processRpcCommand true]
          ++ (if (proc cmd reply).1 = false then [Event.addNotRecognized true] else [])
          ++ [Event.unlock]
          ++ (if (proc cmd reply).1 = true ∧ (proc cmd reply).2 = []
              then [Event.addReceived false] else []) ∧
      (respond toString proc s cmd reply).1.held = s.held := by
  rw [respond_server, hfree]
  exact ⟨rfl, rfl⟩

/-- Witness of C10: a request that is not recognized, entered with the mutex free. -/
theorem respond_critical_section_witness :
    (respond (fun _ => "get x") (fun _ r => (false, r)) ⟨false, []⟩
          [Value.vString "get", Value.vString "x"] []).1.trace =
        [] ++ [Event.lock, Event.processRpcCommand true]
          ++ (if ((fun (_ : Bottle) (r : Bottle) => (false, r))
                [Value.vString "get", Value.vString "x"] []).1 = false
              then [Event.addNotRecognized true] else [])
          ++ [Event.unlock]
          ++ (if ((fun (_ : Bottle) (r : Bottle) => (false, r))
                [Value.vString "get", Value.vString "x"] []).1 = true ∧
                ((fun (_ : Bottle) (r : Bottle) => (false, r))
                [Value.vString "get", Value.vString "x"] []).2 = []
              then [Event.addReceived false] else []) ∧
      (respond (fun _ => "get x") (fun _ r => (false, r)) ⟨false, []⟩
          [Value.vString "get", Value.vString "x"] []).1.held = false :=
  respond_critical_section (fun _ => "get x") (fun _ r => (false, r)) ⟨false, []⟩
    [Value.vString "get", Value.vString "x"] [] rfl

end RespondClaims

/-! ## Properties of the registry lookups -/

section Registry

/-- `hasParam` is true exactly when the id is a key of `paramList`. -/
theorem IntMap.find_isSome_iff {V : Type} (m : IntMap V) (id : Int) :
    (m.find id).isSome = true ↔ id ∈ m.map Prod.fst := by
  induction m with
  | nil => simp [IntMap.find]
  | cons kv rest ih =>
    obtain ⟨k, v⟩ := kv
    by_cases hk : k = id
    · simp [IntMap.find, hk]
    · have hk2 : ¬ id = k := fun h => hk h.symm
      simp [IntMap.find, hk, hk2, ih]

/-- Looking up an id that is not registered with `getParamProxy` gives the null
pointer, and registers the id: afterwards `hasParam` is true and `paramList` has
one more entry. -/
theorem getParamProxy_of_not_hasParam {P C : Type} (h : ParamHelperBase P C) (id : Int)
    (hid : h.hasParam id = false) :
    (h.getParamProxy id).1 = none ∧ (h.getParamProxy id).2.hasParam id = true ∧
      (h.getParamProxy id).2.paramList.length = h.paramList.length + 1 ∧
      (h.getParamProxy id).2.cmdList = h.cmdList := by
  have hfind : h.paramList.find id = none := by
    simpa [ParamHelperBase.hasParam] using hid
  have hin : id ∈ (h.paramList ++ [(id, (none : Option P))]).map Prod.fst := by simp
  refine ⟨?_, ?_, ?_, ?_⟩
  · simp [ParamHelperBase.getParamProxy, IntMap.index, hfind]
  · simp only [ParamHelperBase.getParamProxy, IntMap.index, hfind, ParamHelperBase.hasParam]
    exact (IntMap.find_isSome_iff _ id).mpr hin
  · simp [ParamHelperBase.getParamProxy, IntMap.index, hfind]
  · simp [ParamHelperBase.getParamProxy, IntMap.index, hfind]

/-- C3, evaluated on the code: on the empty registry, where `hasParam 7` is false,
`getParamProxy 7` returns the null pointer but leaves a registry in which
`hasParam 7` is true and `paramList` has one entry instead of none; `hasCommand` is
not affected. -/
theorem getParamProxy_registers_unknown_id :
    (ParamHelperBase.mk ([] : IntMap (Option Unit)) ([] : IntMap Unit)).hasParam 7 = false ∧
      ((ParamHelperBase.mk ([] : IntMap (Option Unit)) ([] : IntMap Unit)).getParamProxy 7).1
        = none ∧
      ((ParamHelperBase.mk ([] : IntMap (Option Unit)) ([] : IntMap Unit)).getParamProxy 7).2.hasParam 7
        = true ∧
      ((ParamHelperBase.mk ([] : IntMap (Option Unit)) ([] : IntMap Unit)).getParamProxy 7).2.paramList.length
        = 1 ∧
      ((ParamHelperBase.mk ([] : IntMap (Option Unit)) ([] : IntMap Unit)).getParamProxy 7).2.hasCommand 7
        = false := by
  decide

end Registry

/-! ## Properties of the textual form -/

section Join

/-- The accumulator loop of `String.intercalate` is a left fold. -/
theorem intercalate_go_eq_foldl (sep : String) (l : List String) (acc : String) :
    String.intercalate.go acc sep l = l.foldl (fun ss t => ss ++ sep ++ t) acc := by
  induction l generalizing acc with
  | nil => rfl
  | cons a as ih => simp only [String.intercalate.go, List.foldl_cons, ih]

/-- The elements of a proxy with at least one element: `value[0]` then the ones the
loop visits. -/
theorem values_of_one_le {T : Type} (p : ParamProxyBasic T) (hn : 1 ≤ p.size) :
    p.values = p.value 0 :: (List.range' 1 (p.size - 1).toNat).map p.value := by
  have h : p.size.toNat = (p.size - 1).toNat + 1 := by omega
  simp only [ParamProxyBasic.values, h, List.range_eq_range', List.range'_succ, List.map_cons,
    Nat.zero_add]

/-- Number of elements of a proxy. -/
theorem values_length {T : Type} (p : ParamProxyBasic T) :
    p.values.length = p.size.toNat := by
  simp [ParamProxyBasic.values]

/-- The loop of `getAsString` joins the tokens of the elements with single spaces. -/
theorem loop_eq_intercalate {T : Type} (put : T → String) (p : ParamProxyBasic T)
    (hn : 1 ≤ p.size) :
    (List.range' 1 (p.size - 1).toNat).foldl
        (fun ss i => ss ++ " " ++ put (p.value i)) (put (p.value 0))
      = " ".intercalate (p.values.map put) := by
  rw [values_of_one_le p hn]
  simp only [List.map_cons, String.intercalate, intercalate_go_eq_foldl, List.map_map,
    List.foldl_map, Function.comp]

/-- The characters of tokens joined by single spaces. -/
theorem intercalate_data (t : String) (ts : List String) :
    (" ".intercalate (t :: ts)).data
      = t.data ++ (ts.map (fun x => ' ' :: x.data)).flatten := by
  simp only [String.intercalate, intercalate_go_eq_foldl]
  induction ts generalizing t with
  | nil => simp
  | cons a as ih =>
    rw [List.foldl_cons, ih]
    simp [String.data_append, List.append_assoc]

/-- Splitting a piece without space followed by a space and a remainder. -/
theorem splitOnSpace_append_space (t r : List Char) (ht : ' ' ∉ t) :
    splitOnSpace (t ++ ' ' :: r) = t :: splitOnSpace r := by
  induction t with
  | nil => simp [splitOnSpace]
  | cons c cs ih =>
    have hc : c ≠ ' ' := fun h => ht (by simp [h])
    have hcs : ' ' ∉ cs := fun h => ht (by simp [h])
    simp [splitOnSpace, hc, ih hcs]

/-- Splitting a piece without space. -/
theorem splitOnSpace_of_no_space (t : List Char) (ht : ' ' ∉ t) : splitOnSpace t = [t] := by
  induction t with
  | nil => simp [splitOnSpace]
  | cons c cs ih =>
    have hc : c ≠ ' ' := fun h => ht (by simp [h])
    have hcs : ' ' ∉ cs := fun h => ht (by simp [h])
    simp [splitOnSpace, hc, ih hcs]

/-- Splitting what the join loop built gives the tokens back. -/
theorem splitOnSpace_joined (t : List Char) (ts : List (List Char)) (ht : ' ' ∉ t)
    (hts : ∀ x ∈ ts, ' ' ∉ x) :
    splitOnSpace (t ++ (ts.map (fun x => ' ' :: x)).flatten) = t :: ts := by
  induction ts generalizing t with
  | nil => simpa using splitOnSpace_of_no_space t ht
  | cons a as ih =>
    have ha : ' ' ∉ a := hts a (by simp)
    have has : ∀ x ∈ as, ' ' ∉ x := fun x hx => hts x (by simp [hx])
    simp only [List.map_cons, List.flatten_cons, List.cons_append]
    rw [splitOnSpace_append_space t _ ht, ih a ha has]

/-- Splitting the join of tokens without space gives the tokens back. -/
theorem splitOnSpace_intercalate (t : String) (ts : List String)
    (h : ∀ x ∈ t :: ts, ' ' ∉ x.data) :
    splitOnSpace (" ".intercalate (t :: ts)).data = (t :: ts).map String.data := by
  rw [intercalate_data]
  have h1 : (ts.map (fun x => ' ' :: x.data)) = (ts.map String.data).map (fun x => ' ' :: x) := by
    simp [List.map_map, Function.comp]
  rw [h1, splitOnSpace_joined t.data (ts.map String.data) (h t (by simp))]
  · simp
  · intro x hx
    obtain ⟨y, hy, rfl⟩ := List.mem_map.mp hx
    exact h y (by simp [hy])

/-- The number of spaces in the join of `n` tokens without space is `n - 1`. -/
theorem count_space_intercalate (t : String) (ts : List String)
    (h : ∀ x ∈ t :: ts, ' ' ∉ x.data) :
    (" ".intercalate (t :: ts)).data.count ' ' = ts.length := by
  have hlen := congrArg List.length (splitOnSpace_intercalate t ts h)
  rw [intercalate_data] at hlen ⊢
  rw [List.count_append, List.count_eq_zero.mpr (h t (by simp)), Nat.zero_add]
  clear hlen
  induction ts with
  | nil => simp
  | cons a as ih =>
    have ha : ' ' ∉ a.data := h a (by simp)
    have has : ∀ x ∈ t :: as, ' ' ∉ x.data := by
      intro x hx
      rcases List.mem_cons.mp hx with hx | hx
      · exact h x (by simp [hx])
      · exact h x (by simp [hx])
    simp only [List.map_cons, List.flatten_cons, List.count_append, List.length_cons, ih has]
    rw [List.count_cons_self, List.count_eq_zero.mpr ha]
    omega

end Join

section BoolText

/-- The first character of the join is the first character of the first token. -/
theorem head_intercalate (t : String) (ts : List String) (ht : t.data ≠ []) :
    (" ".intercalate (t :: ts)).data.head? = t.data.head? := by
  rw [intercalate_data]
  cases hd : t.data with
  | nil => exact absurd hd ht
  | cons c cs => simp

/-- The join of non-empty tokens without space does not end with a space. -/
theorem getLast_intercalate_ne_space (t : String) (ts : List String)
    (h : ∀ x ∈ t :: ts, ' ' ∉ x.data ∧ x.data ≠ []) :
    (" ".intercalate (t :: ts)).data.getLast? ≠ some ' ' := by
  have key : ∀ (l : List Char) (z : String), ' ' ∉ z.data → z.data ≠ [] →
      (l ++ z.data).getLast? ≠ some ' ' := by
    intro l z hz hne hlast
    rw [List.getLast?_append] at hlast
    cases hzl : z.data.getLast? with
    | none => exact hne (List.getLast?_eq_none_iff.mp hzl)
    | some c =>
      rw [hzl] at hlast
      simp only [Option.or_some] at hlast
      have hc : c ∈ z.data := List.mem_of_getLast?_eq_some hzl
      have : c = ' ' := by simpa using hlast
      exact hz (this ▸ hc)
  rw [intercalate_data]
  rcases List.eq_nil_or_concat ts with hnil | ⟨ts', z, hts⟩
  · subst hnil
    simpa using key [] t (h t (by simp)).1 (h t (by simp)).2
  · subst hts
    have hz := h z (by simp)
    have := key (t.data ++ (ts'.map (fun x => ' ' :: x.data)).flatten ++ [' ']) z hz.1 hz.2
    simpa [List.append_assoc] using this

/-- The tokens `true` and `false` hold no space and are not empty. -/
theorem boolalpha_token (b : Bool) :
    ' ' ∉ (boolalpha b).data ∧ (boolalpha b).data ≠ [] := by
  cases b <;> exact ⟨by decide, by decide⟩

/-- The bool specialisation on at least one element is the join of the tokens. -/
theorem getAsString_bool_eq (p : ParamProxyBasic Bool) (hn : 1 ≤ p.size) :
    p.getAsString_bool = " ".intercalate (p.values.map boolalpha) := by
  have h0 : p.size ≠ 0 := by omega
  rw [ParamProxyBasic.getAsString_bool, if_neg h0, loop_eq_intercalate boolalpha p hn]

/-- The double specialisation on at least one element is the join of the tokens. -/
theorem getAsString_double_eq (p : ParamProxyBasic Double) (hn : 1 ≤ p.size) :
    p.getAsString_double = " ".intercalate (p.values.map showpoint) := by
  have h0 : p.size ≠ 0 := by omega
  rw [ParamProxyBasic.getAsString_double, if_neg h0, loop_eq_intercalate showpoint p hn]

/-- Every token of a bool proxy holds no space and is not empty. -/
theorem bool_tokens_ok (p : ParamProxyBasic Bool) :
    ∀ x ∈ p.values.map boolalpha, ' ' ∉ x.data ∧ x.data ≠ [] := by
  intro x hx
  obtain ⟨b, _, rfl⟩ := List.mem_map.mp hx
  exact boolalpha_token b

/-- C4: for a bool parameter of size `n ≥ 1`, `getAsString` is the `n` tokens of
`value[0] .. value[n-1]`, in index order, joined by one single space each, the
token being the literal `true` for a true element and `false` otherwise; the result
has no leading space, no trailing space and exactly `n - 1` spaces. -/
theorem getAsString_bool_tokens (p : ParamProxyBasic Bool) (hn : 1 ≤ p.size) :
    p.getAsString_bool =
        " ".intercalate
          (((List.range p.size.toNat).map p.value).map
            (fun b => if b = true then "true" else "false")) ∧
      ((List.range p.size.toNat).map p.value).length = p.size.toNat ∧
      p.getAsString_bool.data.head? ≠ some ' ' ∧
      p.getAsString_bool.data.getLast? ≠ some ' ' ∧
      p.getAsString_bool.data.count ' ' = p.size.toNat - 1 := by
  have heq := getAsString_bool_eq p hn
  have hv := values_of_one_le p hn
  have htok := bool_tokens_ok p
  have hlen := values_length p
  rw [hv] at heq htok hlen
  simp only [List.map_cons] at heq htok
  refine ⟨?_, by simp, ?_, ?_, ?_⟩
  · rw [getAsString_bool_eq p hn]
    rfl
  · rw [heq, head_intercalate _ _ (htok _ (by simp)).2]
    cases p.value 0 <;> decide
  · rw [heq]
    exact getLast_intercalate_ne_space _ _ htok
  · rw [heq, count_space_intercalate _ _ (fun x hx => (htok x hx).1)]
    simp only [List.length_map, List.length_cons] at hlen ⊢
    omega

/-- Witness of C4: the vector true, false, true. -/
theorem getAsString_bool_tokens_witness :
    (ParamProxyBasic.ofList false [true, false, true]).getAsString_bool = "true false true" ∧
      (ParamProxyBasic.ofList false [true, false, true]).getAsString_bool.data.count ' ' = 2 :=
  ⟨(getAsString_bool_tokens (ParamProxyBasic.ofList false [true, false, true])
      (by decide)).1.trans (by decide),
   (getAsString_bool_tokens (ParamProxyBasic.ofList false [true, false, true])
      (by decide)).2.2.2.2.trans (by decide)⟩

end BoolText

section BoolRoundTrip

/-- The proxy of a list holds the elements of the list. -/
theorem ofList_values {T : Type} (d : T) (v : List T) :
    (ParamProxyBasic.ofList d v).values = v := by
  apply List.ext_getElem
  · simp [ParamProxyBasic.values, ParamProxyBasic.ofList]
  · intro n h1 h2
    simp [ParamProxyBasic.values, ParamProxyBasic.ofList, List.getD_eq_getElem?_getD,
      List.getElem?_eq_getElem h2]

/-- Reading the tokens of bools gives the bools back. -/
theorem parseBoolTokens_tokens (v : List Bool) :
    parseBoolTokens ((v.map boolalpha).map String.data) = some v := by
  induction v with
  | nil => rfl
  | cons b bs ih =>
    simp only [List.map_cons, parseBoolTokens, ih]
    cases b <;> rfl

/-- A string with a character is not the empty string. -/
theorem string_ne_empty_of_data (s : String) (h : s.data ≠ []) : s ≠ "" := by
  intro hs
  exact h (by rw [hs])

/-- The join of tokens the first of which is not empty is not the empty string. -/
theorem intercalate_ne_empty (t : String) (ts : List String) (ht : t.data ≠ []) :
    " ".intercalate (t :: ts) ≠ "" := by
  apply string_ne_empty_of_data
  rw [intercalate_data]
  intro h
  exact ht (List.append_eq_nil.mp h).1

/-- Round trip for any bool proxy with a non-negative size. -/
theorem parseBoolVector_getAsString (p : ParamProxyBasic Bool) (h0 : 0 ≤ p.size) :
    parseBoolVector p.getAsString_bool = some p.values := by
  by_cases hz : p.size = 0
  · simp [ParamProxyBasic.getAsString_bool, hz, parseBoolVector, ParamProxyBasic.values]
  · have hn : 1 ≤ p.size := by omega
    have heq := getAsString_bool_eq p hn
    have htok := bool_tokens_ok p
    rw [values_of_one_le p hn] at heq htok
    simp only [List.map_cons] at heq htok
    have hne := intercalate_ne_empty (boolalpha (p.value 0))
      (((List.range' 1 (p.size - 1).toNat).map p.value).map boolalpha)
      (boolalpha_token (p.value 0)).2
    rw [heq, parseBoolVector, if_neg hne,
      splitOnSpace_intercalate _ _ (fun x hx => (htok x hx).1), values_of_one_le p hn]
    exact parseBoolTokens_tokens (p.value 0 :: (List.range' 1 (p.size - 1).toNat).map p.value)

/-- C9: with parse splitting on single spaces (the empty string being the empty
vector) and reading `true` and `false`, parsing the string form of any bool vector,
the empty one included, gives the vector back; hence the bool specialisation of
`getAsString` is injective on bool vectors. -/
theorem getAsString_bool_round_trip :
    (∀ v : List Bool,
        parseBoolVector (ParamProxyBasic.ofList false v).getAsString_bool = some v) ∧
      Function.Injective
        (fun v : List Bool => (ParamProxyBasic.ofList false v).getAsString_bool) := by
  have hrt : ∀ v : List Bool,
      parseBoolVector (ParamProxyBasic.ofList false v).getAsString_bool = some v := by
    intro v
    have h := parseBoolVector_getAsString (ParamProxyBasic.ofList false v)
      (by simp [ParamProxyBasic.ofList])
    rwa [ofList_values] at h
  refine ⟨hrt, ?_⟩
  intro v w hvw
  have h1 := hrt v
  simp only at hvw
  rw [hvw, hrt w] at h1
  exact (Option.some.inj h1).symm

end BoolRoundTrip

section DoubleText

/-- The conversion `%#g` always writes the decimal point. -/
theorem point_mem_renderG (D : Nat) (X : Int) : '.' ∈ renderG D X := by
  unfold renderG
  simp only []
  split
  · simp
  · split <;> simp

/-- The digits written for a finite double always hold the decimal point. -/
theorem point_mem_showpointDigits (m : Nat) (e : Int) : '.' ∈ showpointDigits m e := by
  unfold showpointDigits
  split
  · simp
  · exact point_mem_renderG _ _

/-- The token of a double is never empty. -/
theorem showpoint_data_ne_nil (x : Double) : (showpoint x).data ≠ [] := by
  cases x with
  | finite neg m e =>
    intro h
    have hp := point_mem_showpointDigits m e
    simp only [showpoint, List.append_eq_nil] at h
    rw [h.2] at hp
    simp at hp
  | inf neg => simp [showpoint]
  | nan neg => simp [showpoint]

/-- C5: for the double and for the bool specialisation, `getAsString` is the empty
string when `size == 0`, whatever `value` points to, and is not empty for every
`size >= 1`. -/
theorem getAsString_empty_iff_size_zero (pd : ParamProxyBasic Double)
    (pb : ParamProxyBasic Bool) :
    (pd.size = 0 → pd.getAsString_double = "") ∧
      (pb.size = 0 → pb.getAsString_bool = "") ∧
      (1 ≤ pd.size → pd.getAsString_double ≠ "") ∧
      (1 ≤ pb.size → pb.getAsString_bool ≠ "") := by
  refine ⟨fun h => ?_, fun h => ?_, fun h => ?_, fun h => ?_⟩
  · simp [ParamProxyBasic.getAsString_double, h]
  · simp [ParamProxyBasic.getAsString_bool, h]
  · rw [getAsString_double_eq pd h, values_of_one_le pd h, List.map_cons]
    exact intercalate_ne_empty _ _ (showpoint_data_ne_nil _)
  · rw [getAsString_bool_eq pb h, values_of_one_le pb h, List.map_cons]
    exact intercalate_ne_empty _ _ (boolalpha_token _).2

/-- Witness of C5: the empty vectors and the vectors `[5.0]`, `[true]`. -/
theorem getAsString_empty_iff_size_zero_witness :
    (ParamProxyBasic.ofList (Double.nan false) []).getAsString_double = "" ∧
      (ParamProxyBasic.ofList false []).getAsString_bool = "" ∧
      (ParamProxyBasic.ofList (Double.nan false) [Double.finite false 5 0]).getAsString_double
        ≠ "" ∧
      (ParamProxyBasic.ofList false [true]).getAsString_bool ≠ "" :=
  ⟨(getAsString_empty_iff_size_zero (ParamProxyBasic.ofList (Double.nan false) [])
      (ParamProxyBasic.ofList false [])).1 (by decide),
   (getAsString_empty_iff_size_zero (ParamProxyBasic.ofList (Double.nan false) [])
      (ParamProxyBasic.ofList false [])).2.1 (by decide),
   (getAsString_empty_iff_size_zero
      (ParamProxyBasic.ofList (Double.nan false) [Double.finite false 5 0])
      (ParamProxyBasic.ofList false [true])).2.2.1 (by decide),
   (getAsString_empty_iff_size_zero
      (ParamProxyBasic.ofList (Double.nan false) [Double.finite false 5 0])
      (ParamProxyBasic.ofList false [true])).2.2.2 (by decide)⟩

/-- C6, the claim refuted: the string form of `param_double` holding its default
value 5.0 is not `5.0`, and holding 7.25 it is not `7.25`. -/
theorem param_double_default_text_ne :
    uTest_ParamDescr_double.id = 0 ∧ uTest_ParamDescr_double.size = 1 ∧
      uTest_ParamDescr_double.defaultValue.toRat = 5 ∧
      (uTest_ParamDescr_double.holding uTest_ParamDescr_double.defaultValue).getAsString_double
        ≠ "5.0" ∧
      (uTest_ParamDescr_double.holding (Double.finite false 29 (-2))).getAsString_double
        ≠ "7.25" := by
  refine ⟨rfl, rfl, ?_, by decide, by decide⟩
  simp [uTest_ParamDescr_double, uTest_DEFAULT_DOUBLE, Double.toRat]

/-- C6 as amended: the string form of `param_double` (id 0, size 1) holding its
default value 5.0 is exactly `5.00000`, and holding 7.25 (the double `29 * 2^-2`)
it is exactly `7.25000`: six significant digits, trailing zeros kept. -/
theorem param_double_default_text :
    uTest_ParamDescr_double.id = 0 ∧ uTest_ParamDescr_double.size = 1 ∧
      uTest_ParamDescr_double.defaultValue.toRat = 5 ∧
      (Double.finite false 29 (-2)).toRat = 29 / 4 ∧
      (uTest_ParamDescr_double.holding uTest_ParamDescr_double.defaultValue).getAsString_double
        = "5.00000" ∧
      (uTest_ParamDescr_double.holding (Double.finite false 29 (-2))).getAsString_double
        = "7.25000" := by
  refine ⟨rfl, rfl, ?_, ?_, by decide, by decide⟩
  · simp [uTest_ParamDescr_double, uTest_DEFAULT_DOUBLE, Double.toRat]
  · norm_num [Double.toRat]

end DoubleText

section DoubleChars

/-- The characters written for the digits 0 to 9 are decimal digits. -/
theorem digitChar_isDigit : ∀ k < 10, (Nat.digitChar k).isDigit = true := by decide

/-- Fixed-width digits are decimal digits. -/
theorem digitsFixed_isDigit (w n : Nat) : ∀ c ∈ digitsFixed w n, c.isDigit = true := by
  induction w generalizing n with
  | zero => simp [digitsFixed]
  | succ w ih =>
    intro c hc
    simp only [digitsFixed, List.mem_append, List.mem_singleton] at hc
    rcases hc with hc | hc
    · exact ih _ c hc
    · rw [hc]
      exact digitChar_isDigit _ (Nat.mod_lt _ (by decide))

/-- There are exactly `w` fixed-width digits. -/
theorem digitsFixed_length (w n : Nat) : (digitsFixed w n).length = w := by
  induction w generalizing n with
  | zero => rfl
  | succ w ih => simp [digitsFixed, ih]

/-- The digits of a natural number are decimal digits. -/
theorem decDigits_isDigit (fuel n : Nat) : ∀ c ∈ decDigits fuel n, c.isDigit = true := by
  induction fuel generalizing n with
  | zero => simp [decDigits]
  | succ f ih =>
    intro c hc
    unfold decDigits at hc
    split at hc
    · rename_i hlt
      rw [List.mem_singleton.mp hc]
      exact digitChar_isDigit _ hlt
    · simp only [List.mem_append, List.mem_singleton] at hc
      rcases hc with hc | hc
      · exact ih _ c hc
      · rw [hc]
        exact digitChar_isDigit _ (Nat.mod_lt _ (by decide))

/-- The digits of an exponent are decimal digits. -/
theorem expDigits_isDigit (x : Nat) : ∀ c ∈ expDigits x, c.isDigit = true := by
  unfold expDigits
  split
  · exact digitsFixed_isDigit 2 x
  · exact decDigits_isDigit _ x

/-- In a sequence of decimal digits a character that is not a digit does not occur. -/
theorem not_mem_of_all_isDigit (l : List Char) (h : ∀ c ∈ l, c.isDigit = true) (x : Char)
    (hx : x.isDigit = false) : x ∉ l := by
  intro hmem
  rw [h x hmem] at hx
  exact Bool.noConfusion hx

/-- The longest prefix of digits of digits followed by a non-digit. -/
theorem takeWhile_digits_append (A B : List Char) (x : Char)
    (hA : ∀ c ∈ A, c.isDigit = true) (hx : x.isDigit = false) :
    (A ++ x :: B).takeWhile Char.isDigit = A ∧ (A ++ x :: B).dropWhile Char.isDigit = x :: B := by
  induction A with
  | nil => simp [List.takeWhile, List.dropWhile, hx]
  | cons a as ih =>
    have ha : a.isDigit = true := hA a (by simp)
    have has : ∀ c ∈ as, c.isDigit = true := fun c hc => hA c (by simp [hc])
    simp [List.takeWhile, List.dropWhile, ha, ih has]

/-- A signed body is in fixed-point notation when it is digits, a point, digits. -/
theorem isFixedPoint_signed (neg : Bool) (A B : List Char) (hne : A ≠ [])
    (hA : ∀ c ∈ A, c.isDigit = true) :
    isFixedPoint (signChars neg ++ (A ++ '.' :: B)) = B.all Char.isDigit := by
  have hbody : (if (signChars neg ++ (A ++ '.' :: B)).head? = some '-'
      then (signChars neg ++ (A ++ '.' :: B)).tail else signChars neg ++ (A ++ '.' :: B))
      = A ++ '.' :: B := by
    cases neg
    · cases hA' : A with
      | nil => exact absurd hA' hne
      | cons a as =>
        have ha : a.isDigit = true := hA a (by simp [hA'])
        have hne' : a ≠ '-' := by
          intro h
          rw [h] at ha
          revert ha
          decide
        simp [signChars, hne']
    · simp [signChars]
  have htd := takeWhile_digits_append A B '.' hA (by decide)
  unfold isFixedPoint
  simp only [hbody, htd.1, htd.2]
  cases hA' : A with
  | nil => exact absurd hA' hne
  | cons a as => simp

end DoubleChars

section RenderG

/-- The three shapes of the conversion `%#g`, each as digits, a point and a rest. -/
theorem renderG_shape (D : Nat) (X : Int) :
    ∃ A B : List Char, renderG D X = A ++ '.' :: B ∧ A ≠ [] ∧
      (∀ c ∈ A, c.isDigit = true) ∧
      ((-4 ≤ X ∧ X < 6) → ∀ c ∈ B, c.isDigit = true) ∧
      (¬ (-4 ≤ X ∧ X < 6) → ∃ B1 B2 : List Char, B = B1 ++ 'e' :: B2 ∧
        (∀ c ∈ B1, c.isDigit = true) ∧ ∀ c ∈ B2, c.isDigit = true ∨ c = '+' ∨ c = '-') := by
  have hds := digitsFixed_isDigit 6 D
  have hlen := digitsFixed_length 6 D
  unfold renderG
  simp only []
  split
  · rename_i hA
    refine ⟨(digitsFixed 6 D).take (X.toNat + 1), (digitsFixed 6 D).drop (X.toNat + 1),
      by simp, ?_, ?_, ?_, ?_⟩
    · intro h
      have := congrArg List.length h
      simp [hlen] at this
    · exact fun c hc => hds c (List.mem_of_mem_take hc)
    · exact fun _ c hc => hds c (List.mem_of_mem_drop hc)
    · intro hn
      exact absurd ⟨by omega, hA.2⟩ hn
  · rename_i hA
    split
    · rename_i hB
      refine ⟨['0'], List.replicate ((-X).toNat - 1) '0' ++ digitsFixed 6 D, by simp, by simp,
        ?_, ?_, ?_⟩
      · intro c hc
        rw [List.mem_singleton.mp hc]
        decide
      · intro _ c hc
        rcases List.mem_append.mp hc with hc | hc
        · rw [(List.mem_replicate.mp hc).2]
          decide
        · exact hds c hc
      · intro hn
        exact absurd ⟨hB.1, by omega⟩ hn
    · rename_i hB
      refine ⟨(digitsFixed 6 D).take 1,
        (digitsFixed 6 D).drop 1 ++ 'e' :: (if X < 0 then '-' else '+') :: expDigits X.natAbs,
        by simp, ?_, ?_, ?_, ?_⟩
      · intro h
        have := congrArg List.length h
        simp [hlen] at this
      · exact fun c hc => hds c (List.mem_of_mem_take hc)
      · intro hr
        rcases Int.lt_or_le X 0 with h0 | h0
        · exact absurd ⟨hr.1, h0⟩ hB
        · exact absurd ⟨h0, hr.2⟩ hA
      · intro _
        refine ⟨(digitsFixed 6 D).drop 1, (if X < 0 then '-' else '+') :: expDigits X.natAbs,
          rfl, fun c hc => hds c (List.mem_of_mem_drop hc), ?_⟩
        intro c hc
        rcases List.mem_cons.mp hc with hc | hc
        · rw [hc]
          split
          · exact Or.inr (Or.inr rfl)
          · exact Or.inr (Or.inl rfl)
        · exact Or.inl (expDigits_isDigit _ c hc)

/-- A sequence of digits holds neither a point nor a space. -/
theorem count_point_digits (l : List Char) (h : ∀ c ∈ l, c.isDigit = true) :
    l.count '.' = 0 ∧ ' ' ∉ l :=
  ⟨List.count_eq_zero.mpr (not_mem_of_all_isDigit l h '.' (by decide)),
    not_mem_of_all_isDigit l h ' ' (by decide)⟩

/-- The conversion `%#g` writes exactly one decimal point and no space. -/
theorem renderG_point_space (D : Nat) (X : Int) :
    (renderG D X).count '.' = 1 ∧ ' ' ∉ renderG D X := by
  obtain ⟨A, B, hAB, _, hA, hfix, hexp⟩ := renderG_shape D X
  have hAc := count_point_digits A hA
  rw [hAB]
  by_cases hX : -4 ≤ X ∧ X < 6
  · have hBc := count_point_digits B (hfix hX)
    refine ⟨?_, ?_⟩
    · rw [List.count_append, List.count_cons_self, hAc.1, hBc.1]
    · simp only [List.mem_append, List.mem_cons, not_or]
      exact ⟨hAc.2, by decide, hBc.2⟩
  · obtain ⟨B1, B2, hB, hB1, hB2⟩ := hexp hX
    have hB1c := count_point_digits B1 hB1
    have hB2p : '.' ∉ B2 := by
      intro hm
      rcases hB2 _ hm with h | h | h
      · revert h; decide
      · revert h; decide
      · revert h; decide
    have hB2s : ' ' ∉ B2 := by
      intro hm
      rcases hB2 _ hm with h | h | h
      · revert h; decide
      · revert h; decide
      · revert h; decide
    refine ⟨?_, ?_⟩
    · rw [hB, List.count_append, List.count_cons_self, List.count_append, hAc.1, hB1c.1,
        List.count_cons_of_ne (by decide), List.count_eq_zero.mpr hB2p]
    · rw [hB]
      simp only [List.mem_append, List.mem_cons, not_or]
      exact ⟨hAc.2, by decide, hB1c.2, by decide, hB2s⟩

/-- The token of a finite double is in fixed-point notation exactly when the decimal
exponent found by the conversion lies between -4 and 5. -/
theorem isFixedPoint_renderG (neg : Bool) (D : Nat) (X : Int) :
    isFixedPoint (signChars neg ++ renderG D X) = true ↔ (-4 ≤ X ∧ X < 6) := by
  obtain ⟨A, B, hAB, hne, hA, hfix, hexp⟩ := renderG_shape D X
  rw [hAB, isFixedPoint_signed neg A B hne hA]
  constructor
  · intro hall
    by_contra hX
    obtain ⟨B1, B2, hB, _, _⟩ := hexp hX
    have he := List.all_eq_true.mp hall 'e' (by simp [hB])
    revert he
    decide
  · intro hX
    exact List.all_eq_true.mpr (hfix hX)

/-- After the carry out of six integer digits the rounded digits are `100000` with
the decimal exponent 6. -/
theorem decimal6_of_carrySix (m : Nat) (e : Int) (h : carrySix m e = true) :
    decimal6 m e = (100000, 6) := by
  simp only [carrySix, Bool.and_eq_true, decide_eq_true_eq] at h
  obtain ⟨⟨hm, hX⟩, hD⟩ := h
  unfold decimal6
  rw [if_neg hm]
  simp only [hX, hD, if_true]
  rfl

/-- The digits written for a finite double hold exactly one decimal point and no
space. -/
theorem showpointDigits_point_space (m : Nat) (e : Int) :
    (showpointDigits m e).count '.' = 1 ∧ ' ' ∉ showpointDigits m e := by
  unfold showpointDigits
  split
  · exact ⟨by decide, by decide⟩
  · exact renderG_point_space _ _

/-- The token of a finite double is in fixed-point notation exactly when the decimal
exponent of its rounded digits lies between -4 and 5. -/
theorem isFixedPoint_showpointDigits (neg : Bool) (m : Nat) (e : Int) :
    isFixedPoint (signChars neg ++ showpointDigits m e) = true ↔
      (-4 ≤ (decimal6 m e).2 ∧ (decimal6 m e).2 < 6) := by
  unfold showpointDigits
  split
  · rename_i hc
    rw [decimal6_of_carrySix m e hc]
    constructor
    · intro h
      revert h
      cases neg <;> decide
    · intro h
      exact absurd h.2 (by decide)
  · exact isFixedPoint_renderG neg _ _

/-- The token of a finite double has exactly one decimal point; no token has a space. -/
theorem showpoint_point_space (x : Double) :
    (x.isFinite = true → (showpoint x).data.count '.' = 1) ∧ ' ' ∉ (showpoint x).data := by
  cases x with
  | finite neg m e =>
    have h := showpointDigits_point_space m e
    have hs : (signChars neg).count '.' = 0 ∧ ' ' ∉ signChars neg := by
      cases neg <;> exact ⟨by decide, by decide⟩
    refine ⟨fun _ => ?_, ?_⟩
    · simp only [showpoint, List.count_append, hs.1, h.1]
    · simp only [showpoint, List.mem_append, not_or]
      exact ⟨hs.2, h.2⟩
  | inf neg =>
    refine ⟨fun h => ?_, ?_⟩
    · exact absurd h (by simp [Double.isFinite])
    · cases neg <;> decide
  | nan neg =>
    refine ⟨fun h => ?_, ?_⟩
    · exact absurd h (by simp [Double.isFinite])
    · cases neg <;> decide

end RenderG

section Rounding

/-- The upward search finds the decimal exponent of a quotient at least 1. -/
theorem expUp_spec (fuel num den k : Nat) (hinv : den * 10 ^ k ≤ num)
    (hfuel : num < den * 10 ^ (k + fuel)) :
    den * 10 ^ expUp fuel num den k ≤ num ∧ num < den * 10 ^ (expUp fuel num den k + 1) := by
  induction fuel generalizing k with
  | zero =>
    rw [Nat.add_zero] at hfuel
    omega
  | succ f ih =>
    unfold expUp
    split
    · rename_i hlt
      exact ⟨hinv, hlt⟩
    · rename_i hge
      apply ih (k + 1) (Nat.le_of_not_lt hge)
      have : k + 1 + f = k + (f + 1) := by omega
      rw [this]
      exact hfuel

/-- The downward search finds the decimal exponent of a quotient below 1. -/
theorem expDown_spec (fuel num den j : Nat) (hinv : num * 10 ^ j < den)
    (hfuel : den ≤ num * 10 ^ (j + fuel)) :
    1 ≤ expDown fuel num den (j + 1) ∧ den ≤ num * 10 ^ expDown fuel num den (j + 1) ∧
      num * 10 ^ (expDown fuel num den (j + 1) - 1) < den := by
  induction fuel generalizing j with
  | zero =>
    rw [Nat.add_zero] at hfuel
    omega
  | succ f ih =>
    unfold expDown
    split
    · rename_i hle
      exact ⟨by omega, hle, by simpa using hinv⟩
    · rename_i hlt
      apply ih (j + 1) (Nat.lt_of_not_le hlt)
      have : j + 1 + f = j + (f + 1) := by omega
      rw [this]
      exact hfuel

/-- The scaled numerator and denominator of `scaleRound` at the exponent found by
`decExponent`: their quotient lies between `10^5` and `10^6`. -/
theorem decExponent_spec (num den : Nat) (hnum : 0 < num) (hden : 0 < den) :
    den * 10 ^ (decExponent num den - 5).toNat * 10 ^ 5
        ≤ num * 10 ^ (5 - decExponent num den).toNat ∧
      num * 10 ^ (5 - decExponent num den).toNat
        < den * 10 ^ (decExponent num den - 5).toNat * 10 ^ 6 := by
  unfold decExponent
  split
  · rename_i hle
    have hf : num < den * 10 ^ (0 + num) := by
      rw [Nat.zero_add]
      calc num < 10 ^ num := Nat.lt_pow_self (by decide) num
        _ ≤ den * 10 ^ num := Nat.le_mul_of_pos_left _ hden
    obtain ⟨h1, h2⟩ := expUp_spec num num den 0 (by simpa using hle) hf
    generalize expUp num num den 0 = k at h1 h2
    rcases Nat.lt_or_ge 5 k with hk | hk
    · have e1 : ((k : Int) - 5).toNat = k - 5 := by omega
      have e2 : (5 - (k : Int)).toNat = 0 := by omega
      have e3 : k + 1 = (k - 5) + 6 := by omega
      have e4 : k = (k - 5) + 5 := by omega
      rw [e1, e2, pow_zero, Nat.mul_one, Nat.mul_assoc, Nat.mul_assoc, ← pow_add, ← pow_add,
        ← e3, ← e4]
      exact ⟨h1, h2⟩
    · have e1 : ((k : Int) - 5).toNat = 0 := by omega
      have e2 : (5 - (k : Int)).toNat = 5 - k := by omega
      rw [e1, e2, pow_zero, Nat.mul_one]
      have e5 : (10 : Nat) ^ 5 = 10 ^ k * 10 ^ (5 - k) := by
        rw [← pow_add]; congr 1; omega
      have e6 : (10 : Nat) ^ 6 = 10 ^ (k + 1) * 10 ^ (5 - k) := by
        rw [← pow_add]; congr 1; omega
      have hp : 0 < (10 : Nat) ^ (5 - k) := Nat.pow_pos (by decide)
      rw [e5, e6, ← Nat.mul_assoc, ← Nat.mul_assoc]
      exact ⟨Nat.mul_le_mul_right _ h1, Nat.mul_lt_mul_of_pos_right h2 hp⟩
  · rename_i hlt
    have hlt' : num * 10 ^ 0 < den := by simpa using Nat.lt_of_not_le hlt
    have hf : den ≤ num * 10 ^ (0 + den) := by
      rw [Nat.zero_add]
      calc den ≤ 10 ^ den := Nat.le_of_lt (Nat.lt_pow_self (by decide) den)
        _ ≤ num * 10 ^ den := Nat.le_mul_of_pos_left _ hnum
    obtain ⟨h0, h1, h2⟩ := expDown_spec den num den 0 hlt' hf
    rw [Nat.zero_add] at h0 h1 h2
    generalize expDown den num den 1 = r at h0 h1 h2
    have e1 : (-(r : Int) - 5).toNat = 0 := by omega
    have e2 : (5 - -(r : Int)).toNat = r + 5 := by omega
    rw [e1, e2, pow_zero, Nat.mul_one]
    have e6 : (10 : Nat) ^ (r + 5) = 10 ^ (r - 1) * 10 ^ 6 := by
      rw [← pow_add]; congr 1; omega
    refine ⟨?_, ?_⟩
    · rw [pow_add, ← Nat.mul_assoc]
      exact Nat.mul_le_mul_right _ h1
    · rw [e6, ← Nat.mul_assoc]
      exact Nat.mul_lt_mul_of_pos_right h2 (by decide)

/-- Rounding to nearest: the result is the quotient or the next integer, within one
half of the exact quotient. -/
theorem roundHalfEven_spec (n d : Nat) (hd : 0 < d) :
    n / d ≤ roundHalfEven n d ∧ roundHalfEven n d ≤ n / d + 1 ∧
      2 * n ≤ 2 * (roundHalfEven n d * d) + d ∧ 2 * (roundHalfEven n d * d) ≤ 2 * n + d := by
  have hdm := Nat.div_add_mod n d
  have hml := Nat.mod_lt n hd
  have hqd : d * (n / d) = n / d * d := Nat.mul_comm _ _
  have hsucc : (n / d + 1) * d = n / d * d + d := by
    rw [Nat.add_mul, Nat.one_mul]
  unfold roundHalfEven
  simp only []
  split
  · refine ⟨le_refl _, by omega, by omega, by omega⟩
  · split
    · refine ⟨by omega, le_refl _, by omega, by omega⟩
    · split
      · refine ⟨le_refl _, by omega, by omega, by omega⟩
      · refine ⟨by omega, le_refl _, by omega, by omega⟩

end Rounding


section RoundingValue

/-- The magnitude of a finite double as the quotient the conversion works on. -/
theorem mant_scale (m : Nat) (e : Int) :
    ((m * 2 ^ e.toNat : Nat) : ℚ) / ((2 ^ (-e).toNat : Nat) : ℚ) = (m : ℚ) * (2 : ℚ) ^ e := by
  rcases le_total 0 e with he | he
  · obtain ⟨n, rfl⟩ := Int.eq_ofNat_of_zero_le he
    have h1 : (-(n : Int)).toNat = 0 := by omega
    rw [h1, Int.toNat_ofNat, zpow_natCast]
    simp
  · obtain ⟨n, hn⟩ := Int.eq_ofNat_of_zero_le (show 0 ≤ -e by omega)
    have h3 : e = -(n : Int) := by omega
    subst h3
    have h1 : (-(n : Int)).toNat = 0 := by omega
    rw [h1, neg_neg, Int.toNat_ofNat, zpow_neg, zpow_natCast]
    simp [div_eq_mul_inv]

/-- The scaling of `scaleRound` is the division by `10^(X-5)`. -/
theorem pow_scale (X : Int) :
    ((10 ^ (5 - X).toNat : Nat) : ℚ) / ((10 ^ (X - 5).toNat : Nat) : ℚ) = (10 : ℚ) ^ (5 - X) := by
  rcases le_total X 5 with he | he
  · obtain ⟨n, hn⟩ := Int.eq_ofNat_of_zero_le (show 0 ≤ 5 - X by omega)
    have h1 : (X - 5).toNat = 0 := by omega
    rw [h1, hn, Int.toNat_ofNat, zpow_natCast]
    simp
  · obtain ⟨n, hn⟩ := Int.eq_ofNat_of_zero_le (show 0 ≤ X - 5 by omega)
    have h1 : (5 - X).toNat = 0 := by omega
    have h3 : 5 - X = -(n : Int) := by omega
    rw [h1, hn, h3, Int.toNat_ofNat, zpow_neg, zpow_natCast]
    simp

/-- The digits found by `scaleRound` at the exponent of `decExponent`: between `10^5`
and `10^6`, within half a unit of the scaled value. -/
theorem scaleRound_spec (num den : Nat) (hnum : 0 < num) (hden : 0 < den) :
    100000 ≤ scaleRound num den (decExponent num den) ∧
      scaleRound num den (decExponent num den) ≤ 1000000 ∧
      |(num : ℚ) / (den : ℚ)
          - (scaleRound num den (decExponent num den) : ℚ) * (10 : ℚ) ^ (decExponent num den - 5)|
        ≤ (10 : ℚ) ^ (decExponent num den - 5) / 2 := by
  obtain ⟨hlo, hhi⟩ := decExponent_spec num den hnum hden
  generalize decExponent num den = X at hlo hhi ⊢
  unfold scaleRound
  have hM : 0 < den * 10 ^ (X - 5).toNat := Nat.mul_pos hden (Nat.pow_pos (by decide))
  obtain ⟨hq1, hq2, hr1, hr2⟩ :=
    roundHalfEven_spec (num * 10 ^ (5 - X).toNat) (den * 10 ^ (X - 5).toNat) hM
  have hNM : ((num * 10 ^ (5 - X).toNat : Nat) : ℚ) / ((den * 10 ^ (X - 5).toNat : Nat) : ℚ)
      = (num : ℚ) / (den : ℚ) * (10 : ℚ) ^ (5 - X) := by
    rw [← pow_scale X]
    push_cast
    rw [mul_div_mul_comm]
  generalize num * 10 ^ (5 - X).toNat = N at hlo hhi hq1 hq2 hr1 hr2 hNM
  generalize den * 10 ^ (X - 5).toNat = M at hlo hhi hq1 hq2 hr1 hr2 hNM hM
  generalize roundHalfEven N M = D0 at hq1 hq2 hr1 hr2 ⊢
  have hqlo : 100000 ≤ N / M := (Nat.le_div_iff_mul_le hM).mpr (by simpa [Nat.mul_comm] using hlo)
  have hqhi : N / M < 1000000 := (Nat.div_lt_iff_lt_mul hM).mpr (by simpa [Nat.mul_comm] using hhi)
  refine ⟨by omega, by omega, ?_⟩
  have hP : (0 : ℚ) < (10 : ℚ) ^ (X - 5) := zpow_pos (by norm_num) _
  have hMq : (0 : ℚ) < (M : ℚ) := by exact_mod_cast hM
  have hv : (num : ℚ) / (den : ℚ) = (N : ℚ) / (M : ℚ) * (10 : ℚ) ^ (X - 5) := by
    rw [hNM, mul_assoc, ← zpow_add₀ (by norm_num : (10 : ℚ) ≠ 0)]
    simp
  have h1 : (2 : ℚ) * N ≤ 2 * (D0 * M) + M := by exact_mod_cast hr1
  have h2 : (2 : ℚ) * (D0 * M) ≤ 2 * N + M := by exact_mod_cast hr2
  have habs : |(N : ℚ) / (M : ℚ) - (D0 : ℚ)| ≤ 1 / 2 := by
    rw [abs_le]
    constructor
    · rw [le_sub_iff_add_le, le_div_iff₀ hMq]
      nlinarith
    · rw [sub_le_iff_le_add, div_le_iff₀ hMq]
      nlinarith
  rw [hv, ← sub_mul, abs_mul, abs_of_pos hP]
  calc |(N : ℚ) / (M : ℚ) - (D0 : ℚ)| * (10 : ℚ) ^ (X - 5)
      ≤ 1 / 2 * (10 : ℚ) ^ (X - 5) := mul_le_mul_of_nonneg_right habs (le_of_lt hP)
    _ = (10 : ℚ) ^ (X - 5) / 2 := by ring

/-- The digits of `decimal6`: for a non-zero magnitude `mant * 2^exp` the digits `D`
have exactly six places and `D * 10^(X-5)` is within half of `10^(X-5)` of the
magnitude (`decimal6_error_tight` has the bound at the exponent of the magnitude). -/
theorem decimal6_spec (m : Nat) (e : Int) (hm : 0 < m) :
    100000 ≤ (decimal6 m e).1 ∧ (decimal6 m e).1 < 1000000 ∧
      |(m : ℚ) * (2 : ℚ) ^ e - ((decimal6 m e).1 : ℚ) * (10 : ℚ) ^ ((decimal6 m e).2 - 5)|
        ≤ (10 : ℚ) ^ ((decimal6 m e).2 - 5) / 2 := by
  have hnum : 0 < m * 2 ^ e.toNat := Nat.mul_pos hm (Nat.pow_pos (by decide))
  have hden : 0 < 2 ^ (-e).toNat := Nat.pow_pos (by decide)
  obtain ⟨h1, h2, h3⟩ := scaleRound_spec _ _ hnum hden
  rw [mant_scale] at h3
  unfold decimal6
  rw [if_neg (by omega)]
  simp only []
  generalize decExponent (m * 2 ^ e.toNat) (2 ^ (-e).toNat) = X at h1 h2 h3 ⊢
  generalize scaleRound (m * 2 ^ e.toNat) (2 ^ (-e).toNat) X = D0 at h1 h2 h3 ⊢
  split
  · rename_i hD
    subst hD
    refine ⟨Nat.le_refl _, by show (100000 : Nat) < 1000000; decide, ?_⟩
    have hP : (0 : ℚ) < (10 : ℚ) ^ (X - 5) := zpow_pos (by norm_num) _
    have e1 : (10 : ℚ) ^ (X + 1 - 5) = 10 * (10 : ℚ) ^ (X - 5) := by
      rw [show X + 1 - 5 = 1 + (X - 5) by ring, zpow_add₀ (by norm_num : (10 : ℚ) ≠ 0)]
      simp
    simp only [e1]
    have e2 : ((100000 : Nat) : ℚ) * (10 * (10 : ℚ) ^ (X - 5))
        = ((1000000 : Nat) : ℚ) * (10 : ℚ) ^ (X - 5) := by
      push_cast; ring
    rw [e2]
    refine le_trans h3 ?_
    linarith
  · rename_i hD
    exact ⟨h1, by omega, h3⟩

/-- Rounding a quotient below `10^6` gives `10^6` exactly from `999999.5` on. -/
theorem roundHalfEven_top (n d : Nat) (hd : 0 < d) (hhi : n < d * 1000000) :
    roundHalfEven n d = 1000000 ↔ 1999999 * d ≤ 2 * n := by
  have hdm := Nat.div_add_mod n d
  have hml := Nat.mod_lt n hd
  have hq : n / d < 1000000 := (Nat.div_lt_iff_lt_mul hd).mpr (by rwa [Nat.mul_comm] at hhi)
  constructor
  · intro h
    have hq' : n / d = 999999 := by
      have := (roundHalfEven_spec n d hd).2.1
      omega
    have hr := (roundHalfEven_spec n d hd).2.2.2
    rw [h] at hr
    omega
  · intro h
    have hq' : n / d = 999999 := by
      have h1 : 999999 ≤ n / d := by
        rw [Nat.le_div_iff_mul_le hd]
        omega
      omega
    rw [hq'] at hdm
    unfold roundHalfEven
    simp only [hq']
    split
    · omega
    · split
      · rfl
      · rfl

/-- The scaled value at the exponent of `decExponent`: it lies between `10^5` and
`10^6` units of `10^(X-5)`, and its rounding is `10^6` exactly from `999999.5`
units on. -/
theorem scaleRound_bounds (num den : Nat) (hnum : 0 < num) (hden : 0 < den) :
    (100000 : ℚ) * (10 : ℚ) ^ (decExponent num den - 5) ≤ (num : ℚ) / (den : ℚ) ∧
      (num : ℚ) / (den : ℚ) < (1000000 : ℚ) * (10 : ℚ) ^ (decExponent num den - 5) ∧
      (scaleRound num den (decExponent num den) = 1000000 ↔
        (1999999 : ℚ) / 2 * (10 : ℚ) ^ (decExponent num den - 5) ≤ (num : ℚ) / (den : ℚ)) := by
  obtain ⟨hlo, hhi⟩ := decExponent_spec num den hnum hden
  generalize decExponent num den = X at hlo hhi ⊢
  unfold scaleRound
  have hM : 0 < den * 10 ^ (X - 5).toNat := Nat.mul_pos hden (Nat.pow_pos (by decide))
  have htop := roundHalfEven_top (num * 10 ^ (5 - X).toNat) (den * 10 ^ (X - 5).toNat) hM hhi
  have hNM : ((num * 10 ^ (5 - X).toNat : Nat) : ℚ) / ((den * 10 ^ (X - 5).toNat : Nat) : ℚ)
      = (num : ℚ) / (den : ℚ) * (10 : ℚ) ^ (5 - X) := by
    rw [← pow_scale X]
    push_cast
    rw [mul_div_mul_comm]
  generalize num * 10 ^ (5 - X).toNat = N at hlo hhi htop hNM
  generalize den * 10 ^ (X - 5).toNat = M at hlo hhi htop hNM hM
  have hP : (0 : ℚ) < (10 : ℚ) ^ (X - 5) := zpow_pos (by norm_num) _
  have hMq : (0 : ℚ) < (M : ℚ) := by exact_mod_cast hM
  have hv : (num : ℚ) / (den : ℚ) = (N : ℚ) / (M : ℚ) * (10 : ℚ) ^ (X - 5) := by
    rw [hNM, mul_assoc, ← zpow_add₀ (by norm_num : (10 : ℚ) ≠ 0)]
    simp
  have h1 : (M : ℚ) * 100000 ≤ (N : ℚ) := by exact_mod_cast hlo
  have h2 : (N : ℚ) < (M : ℚ) * 1000000 := by exact_mod_cast hhi
  rw [hv]
  refine ⟨?_, ?_, ?_⟩
  · apply mul_le_mul_of_nonneg_right _ (le_of_lt hP)
    rw [le_div_iff₀ hMq]
    linarith
  · apply mul_lt_mul_of_pos_right _ hP
    rw [div_lt_iff₀ hMq]
    linarith
  · rw [htop, mul_le_mul_right hP, le_div_iff₀ hMq]
    constructor
    · intro h
      have h3 : ((1999999 * M : Nat) : ℚ) ≤ ((2 * N : Nat) : ℚ) := by exact_mod_cast h
      push_cast at h3
      linarith
    · intro h
      have h3 : ((1999999 * M : Nat) : ℚ) ≤ ((2 * N : Nat) : ℚ) := by
        push_cast
        linarith
      exact_mod_cast h3

/-- The digits and exponent of `decimal6` before the carry: the exponent `Xv` of
the magnitude itself, its digits `D0` rounded at that exponent, and the carry rule. -/
theorem decimal6_pre (m : Nat) (e : Int) (hm : 0 < m) :
    ∃ (D0 : Nat) (Xv : Int),
      decimal6 m e = (if D0 = 1000000 then (100000, Xv + 1) else (D0, Xv)) ∧
      100000 ≤ D0 ∧ D0 ≤ 1000000 ∧
      |(m : ℚ) * (2 : ℚ) ^ e - (D0 : ℚ) * (10 : ℚ) ^ (Xv - 5)| ≤ (10 : ℚ) ^ (Xv - 5) / 2 ∧
      (100000 : ℚ) * (10 : ℚ) ^ (Xv - 5) ≤ (m : ℚ) * (2 : ℚ) ^ e ∧
      (m : ℚ) * (2 : ℚ) ^ e < (1000000 : ℚ) * (10 : ℚ) ^ (Xv - 5) ∧
      (D0 = 1000000 ↔ (1999999 : ℚ) / 2 * (10 : ℚ) ^ (Xv - 5) ≤ (m : ℚ) * (2 : ℚ) ^ e) := by
  have hnum : 0 < m * 2 ^ e.toNat := Nat.mul_pos hm (Nat.pow_pos (by decide))
  have hden : 0 < 2 ^ (-e).toNat := Nat.pow_pos (by decide)
  obtain ⟨h1, h2, h3⟩ := scaleRound_spec _ _ hnum hden
  obtain ⟨b1, b2, b3⟩ := scaleRound_bounds _ _ hnum hden
  rw [mant_scale] at h3 b1 b2 b3
  refine ⟨scaleRound (m * 2 ^ e.toNat) (2 ^ (-e).toNat)
      (decExponent (m * 2 ^ e.toNat) (2 ^ (-e).toNat)),
    decExponent (m * 2 ^ e.toNat) (2 ^ (-e).toNat), ?_, h1, h2, h3, b1, b2, b3⟩
  unfold decimal6
  rw [if_neg (by omega)]

/-- The value written by `decimal6` is the value of the digits before the carry. -/
theorem carry_value (D0 : Nat) (Xv : Int) :
    (((if D0 = 1000000 then ((100000 : Nat), Xv + 1) else (D0, Xv)).1 : Nat) : ℚ)
        * (10 : ℚ) ^ ((if D0 = 1000000 then ((100000 : Nat), Xv + 1) else (D0, Xv)).2 - 5)
      = (D0 : ℚ) * (10 : ℚ) ^ (Xv - 5) := by
  split
  · rename_i h
    subst h
    have e1 : (10 : ℚ) ^ (Xv + 1 - 5) = 10 * (10 : ℚ) ^ (Xv - 5) := by
      rw [show Xv + 1 - 5 = 1 + (Xv - 5) by ring, zpow_add₀ (by norm_num : (10 : ℚ) ≠ 0)]
      simp
    simp only [e1]
    push_cast
    ring
  · rfl

/-- Tight rounding error of `decimal6`: for a magnitude below `10^(k+1)` the value
written differs from it by at most half a unit of `10^(k-5)`. -/
theorem decimal6_error_tight (m : Nat) (e : Int) (hm : 0 < m) (k : Int)
    (hk : (m : ℚ) * (2 : ℚ) ^ e < (10 : ℚ) ^ (k + 1)) :
    |(m : ℚ) * (2 : ℚ) ^ e - ((decimal6 m e).1 : ℚ) * (10 : ℚ) ^ ((decimal6 m e).2 - 5)|
      ≤ (10 : ℚ) ^ (k - 5) / 2 := by
  obtain ⟨D0, Xv, hdec, _, _, herr, hlo, _, _⟩ := decimal6_pre m e hm
  rw [hdec, carry_value]
  have h10 : (1 : ℚ) < 10 := by norm_num
  have e1 : (100000 : ℚ) * (10 : ℚ) ^ (Xv - 5) = (10 : ℚ) ^ Xv := by
    rw [show Xv = 5 + (Xv - 5) by ring, zpow_add₀ (by norm_num : (10 : ℚ) ≠ 0)]
    norm_num
  rw [e1] at hlo
  have hlt : Xv < k + 1 := (zpow_lt_zpow_iff_right₀ h10).mp (lt_of_le_of_lt hlo hk)
  have hle : (10 : ℚ) ^ (Xv - 5) ≤ (10 : ℚ) ^ (k - 5) :=
    zpow_le_zpow_right₀ (le_of_lt h10) (by omega)
  linarith

/-- The decimal exponent of `decimal6` against the value: it is at least `k`
exactly from `999999.5 * 10^(k-6)` on. -/
theorem decimal6_exponent_ge_iff (m : Nat) (e : Int) (hm : 0 < m) (k : Int) :
    k ≤ (decimal6 m e).2 ↔
      (1999999 : ℚ) / 2 * (10 : ℚ) ^ (k - 6) ≤ (m : ℚ) * (2 : ℚ) ^ e := by
  obtain ⟨D0, Xv, hdec, _, _, _, hlo, hhi, hcarry⟩ := decimal6_pre m e hm
  rw [hdec]
  have h10 : (1 : ℚ) < 10 := by norm_num
  have hP : (0 : ℚ) < (10 : ℚ) ^ (Xv - 5) := zpow_pos (by norm_num) _
  have hten : (10 : ℚ) ^ (Xv - 4) = 10 * (10 : ℚ) ^ (Xv - 5) := by
    rw [show Xv - 4 = 1 + (Xv - 5) by ring, zpow_add₀ (by norm_num : (10 : ℚ) ≠ 0)]
    simp
  have htenth : (10 : ℚ) * (10 : ℚ) ^ (Xv - 6) = (10 : ℚ) ^ (Xv - 5) := by
    rw [show Xv - 5 = 1 + (Xv - 6) by ring, zpow_add₀ (by norm_num : (10 : ℚ) ≠ 0)]
    simp
  by_cases hD : D0 = 1000000
  · rw [if_pos hD]
    have hc := hcarry.mp hD
    constructor
    · intro hk
      have hle : (10 : ℚ) ^ (k - 6) ≤ (10 : ℚ) ^ (Xv - 5) :=
        zpow_le_zpow_right₀ (le_of_lt h10) (by simp only at hk; omega)
      nlinarith
    · intro hv
      by_contra hk
      have hle : (10 : ℚ) ^ (Xv - 4) ≤ (10 : ℚ) ^ (k - 6) :=
        zpow_le_zpow_right₀ (le_of_lt h10) (by simp only at hk; omega)
      rw [hten] at hle
      nlinarith
  · rw [if_neg hD]
    have hc : (m : ℚ) * (2 : ℚ) ^ e < (1999999 : ℚ) / 2 * (10 : ℚ) ^ (Xv - 5) :=
      lt_of_not_le (fun h => hD (hcarry.mpr h))
    constructor
    · intro hk
      have hle : (10 : ℚ) ^ (k - 6) ≤ (10 : ℚ) ^ (Xv - 6) :=
        zpow_le_zpow_right₀ (le_of_lt h10) (by simp only at hk; omega)
      have hQ : (0 : ℚ) < (10 : ℚ) ^ (Xv - 6) := zpow_pos (by norm_num) _
      nlinarith
    · intro hv
      by_contra hk
      have hle : (10 : ℚ) ^ (Xv - 5) ≤ (10 : ℚ) ^ (k - 6) :=
        zpow_le_zpow_right₀ (le_of_lt h10) (by simp only at hk; omega)
      nlinarith

end RoundingValue

section DoubleJoin

/-- Joining non-empty tokens without space by single spaces loses nothing. -/
theorem intercalate_injective (ts us : List String)
    (hts : ∀ x ∈ ts, ' ' ∉ x.data ∧ x.data ≠ [])
    (hus : ∀ x ∈ us, ' ' ∉ x.data ∧ x.data ≠ [])
    (h : " ".intercalate ts = " ".intercalate us) : ts = us := by
  have hinj : Function.Injective String.data := fun a b hab => String.ext hab
  cases ts with
  | nil =>
    cases us with
    | nil => rfl
    | cons u us =>
      exact absurd h.symm (intercalate_ne_empty u us (hus u (by simp)).2)
  | cons t ts =>
    cases us with
    | nil => exact absurd h (intercalate_ne_empty t ts (hts t (by simp)).2)
    | cons u us =>
      have h1 := splitOnSpace_intercalate t ts (fun x hx => (hts x hx).1)
      have h2 := splitOnSpace_intercalate u us (fun x hx => (hus x hx).1)
      rw [h, h2] at h1
      exact (List.map_injective_iff.mpr hinj h1).symm

/-- The double specialisation on any non-negative size is the join of the tokens. -/
theorem getAsString_double_eq_of_nonneg (p : ParamProxyBasic Double) (h0 : 0 ≤ p.size) :
    p.getAsString_double = " ".intercalate (p.values.map showpoint) := by
  by_cases hz : p.size = 0
  · simp [ParamProxyBasic.getAsString_double, hz, ParamProxyBasic.values, String.intercalate]
  · exact getAsString_double_eq p (by omega)

/-- Every token of a double holds no space and is not empty. -/
theorem double_tokens_ok (v : List Double) :
    ∀ x ∈ v.map showpoint, ' ' ∉ x.data ∧ x.data ≠ [] := by
  intro x hx
  obtain ⟨d, _, rfl⟩ := List.mem_map.mp hx
  exact ⟨(showpoint_point_space d).2, showpoint_data_ne_nil d⟩

/-- The double specialisation on the proxy of a list. -/
theorem getAsString_double_ofList (v : List Double) :
    (ParamProxyBasic.ofList (Double.nan false) v).getAsString_double
      = " ".intercalate (v.map showpoint) := by
  rw [getAsString_double_eq_of_nonneg _ (by simp [ParamProxyBasic.ofList]), ofList_values]

/-- Two double vectors have the same string form exactly when they have the same
tokens, element by element. -/
theorem getAsString_double_same_iff (v w : List Double) :
      ((ParamProxyBasic.ofList (Double.nan false) v).getAsString_double
          = (ParamProxyBasic.ofList (Double.nan false) w).getAsString_double
        ↔ v.map showpoint = w.map showpoint) := by
  rw [getAsString_double_ofList, getAsString_double_ofList]
  constructor
  · exact intercalate_injective _ _ (double_tokens_ok v) (double_tokens_ok w)
  · intro h
    rw [h]

end DoubleJoin

section DoubleParse

/-- The value of the character written for a digit. -/
theorem digitChar_value : ∀ k < 10, (Nat.digitChar k).toNat - 48 = k := by decide

/-- Reading one more digit. -/
theorem readNat_append_singleton (l : List Char) (c : Char) :
    readNat (l ++ [c]) = 10 * readNat l + (c.toNat - 48) := by
  simp [readNat, List.foldl_append]

/-- Reading two sequences of digits written one after the other. -/
theorem readNat_append (A B : List Char) :
    readNat (A ++ B) = readNat A * 10 ^ B.length + readNat B := by
  induction B using List.reverseRecOn with
  | nil => simp [readNat]
  | append_singleton B c ih =>
    rw [← List.append_assoc, readNat_append_singleton, ih, readNat_append_singleton,
      List.length_append, List.length_singleton, pow_succ]
    ring

/-- Reading fixed-width digits gives the number back, modulo the width. -/
theorem readNat_digitsFixed (w n : Nat) : readNat (digitsFixed w n) = n % 10 ^ w := by
  induction w generalizing n with
  | zero => simp [digitsFixed, readNat, Nat.mod_one]
  | succ w ih =>
    rw [digitsFixed, readNat_append_singleton, ih, digitChar_value _ (Nat.mod_lt _ (by decide))]
    rw [pow_succ, Nat.mul_comm (10 ^ w) 10, Nat.mod_mul]
    omega

/-- Leading zeros do not change the number read. -/
theorem readNat_replicate_zero (k : Nat) (l : List Char) :
    readNat (List.replicate k '0' ++ l) = readNat l := by
  rw [readNat_append]
  have : readNat (List.replicate k '0') = 0 := by
    induction k with
    | zero => rfl
    | succ k ih =>
      rw [List.replicate_succ', readNat_append_singleton, ih]
      rfl
  rw [this, Nat.zero_mul, Nat.zero_add]

/-- Reading the digits of a natural number gives the number back. -/
theorem readNat_decDigits (fuel n : Nat) (h : n < 10 ^ fuel) :
    readNat (decDigits fuel n) = n := by
  induction fuel generalizing n with
  | zero =>
    have : n = 0 := by simpa using h
    subst this
    rfl
  | succ f ih =>
    unfold decDigits
    split
    · rename_i hlt
      have := readNat_append_singleton [] (Nat.digitChar n)
      rw [List.nil_append] at this
      rw [this, digitChar_value n hlt]
      simp [readNat]
    · have hdiv : n / 10 < 10 ^ f := by
        rw [Nat.div_lt_iff_lt_mul (by decide), ← pow_succ]
        exact h
      rw [readNat_append_singleton, ih _ hdiv, digitChar_value _ (Nat.mod_lt _ (by decide))]
      omega

/-- Reading the digits of an exponent gives the exponent back. -/
theorem readNat_expDigits (x : Nat) : readNat (expDigits x) = x := by
  unfold expDigits
  split
  · rename_i h
    rw [readNat_digitsFixed]
    exact Nat.mod_eq_of_lt h
  · exact readNat_decDigits _ _ (Nat.lt_of_lt_of_le (Nat.lt_pow_self (by decide) x)
      (Nat.pow_le_pow_right (by decide) (Nat.le_succ x)))

/-- An exponent has at least one digit. -/
theorem expDigits_ne_nil (x : Nat) : expDigits x ≠ [] := by
  unfold expDigits
  split
  · intro h
    have := congrArg List.length h
    rw [digitsFixed_length] at this
    exact absurd this (by decide)
  · unfold decDigits
    split <;> simp

/-- The longest prefix of digits of a sequence of digits is the whole sequence. -/
theorem takeWhile_all_digits (A : List Char) (hA : ∀ c ∈ A, c.isDigit = true) :
    A.takeWhile Char.isDigit = A ∧ A.dropWhile Char.isDigit = [] := by
  induction A with
  | nil => simp
  | cons a as ih =>
    have ha : a.isDigit = true := hA a (by simp)
    have has : ∀ c ∈ as, c.isDigit = true := fun c hc => hA c (by simp [hc])
    simp [List.takeWhile, List.dropWhile, ha, ih has]

/-- The sign and the body of a signed sequence starting with a digit. -/
theorem signed_head_tail (neg : Bool) (A R : List Char) (hne : A ≠ [])
    (hA : ∀ c ∈ A, c.isDigit = true) :
    decide ((signChars neg ++ (A ++ R)).head? = some '-') = neg ∧
      (if (signChars neg ++ (A ++ R)).head? = some '-'
        then (signChars neg ++ (A ++ R)).tail else signChars neg ++ (A ++ R)) = A ++ R := by
  cases neg
  · cases hA' : A with
    | nil => exact absurd hA' hne
    | cons a as =>
      have ha : a.isDigit = true := hA a (by simp [hA'])
      have hne' : a ≠ '-' := by
        intro h
        rw [h] at ha
        revert ha
        decide
      simp [signChars, hne']
  · simp [signChars]

/-- Reading a fixed-point numeral. -/
theorem readDecimal_fixed (neg : Bool) (A F : List Char) (hne : A ≠ [])
    (hA : ∀ c ∈ A, c.isDigit = true) (hF : ∀ c ∈ F, c.isDigit = true) :
    readDecimal (signChars neg ++ (A ++ '.' :: F))
      = some (signFactor neg * (readNat (A ++ F) : ℚ) * (10 : ℚ) ^ (-(F.length : Int))) := by
  obtain ⟨hs, hb⟩ := signed_head_tail neg A ('.' :: F) hne hA
  obtain ⟨ht, hd⟩ := takeWhile_digits_append A F '.' hA (by decide)
  obtain ⟨hft, hfd⟩ := takeWhile_all_digits F hF
  have hAe : A.isEmpty = false := by
    cases A with
    | nil => exact absurd rfl hne
    | cons a as => rfl
  unfold readDecimal
  simp only [hb, hs, ht, hd, List.tail_cons, hft, hfd, hAe, List.head?_cons, List.isEmpty_nil]
  simp

/-- Reading a numeral with an exponent part. -/
theorem readDecimal_exp (neg pos : Bool) (A F E : List Char) (hne : A ≠ [])
    (hA : ∀ c ∈ A, c.isDigit = true) (hF : ∀ c ∈ F, c.isDigit = true) (hEne : E ≠ [])
    (hE : ∀ c ∈ E, c.isDigit = true) :
    readDecimal (signChars neg ++ (A ++ '.' :: (F ++ 'e' :: (if pos then '+' else '-') :: E)))
      = some (signFactor neg * (readNat (A ++ F) : ℚ) * (10 : ℚ) ^ (-(F.length : Int))
          * (10 : ℚ) ^ (if pos then (readNat E : Int) else -(readNat E : Int))) := by
  obtain ⟨hs, hb⟩ := signed_head_tail neg A ('.' :: (F ++ 'e' :: (if pos then '+' else '-') :: E))
    hne hA
  obtain ⟨ht, hd⟩ := takeWhile_digits_append A (F ++ 'e' :: (if pos then '+' else '-') :: E) '.'
    hA (by decide)
  obtain ⟨hft, hfd⟩ := takeWhile_digits_append F ((if pos then '+' else '-') :: E) 'e' hF
    (by decide)
  have hAe : A.isEmpty = false := by
    cases A with
    | nil => exact absurd rfl hne
    | cons a as => rfl
  have hEe : E.isEmpty = false := by
    cases E with
    | nil => exact absurd rfl hEne
    | cons a as => rfl
  have hEall : E.all Char.isDigit = true := List.all_eq_true.mpr hE
  unfold readDecimal
  simp only [hb, hs, ht, hd, List.tail_cons, hft, hfd, hAe, List.head?_cons, List.isEmpty_cons,
    hEe, hEall]
  cases pos <;> simp

/-- Reading what the conversion `%#g` wrote gives the six digits scaled by the
decimal exponent. -/
theorem readDecimal_renderG (neg : Bool) (D : Nat) (X : Int) (hD : D < 1000000) :
    readDecimal (signChars neg ++ renderG D X)
      = some (signFactor neg * (D : ℚ) * (10 : ℚ) ^ (X - 5)) := by
  have hds := digitsFixed_isDigit 6 D
  have hlen := digitsFixed_length 6 D
  have hval : readNat (digitsFixed 6 D) = D := by
    rw [readNat_digitsFixed]
    exact Nat.mod_eq_of_lt hD
  have h10 : (10 : ℚ) ≠ 0 := by norm_num
  unfold renderG
  simp only []
  split
  · rename_i hA
    rw [List.append_assoc, List.singleton_append,
      readDecimal_fixed neg _ _ (by
        intro h
        have := congrArg List.length h
        simp [hlen] at this)
        (fun c hc => hds c (List.mem_of_mem_take hc))
        (fun c hc => hds c (List.mem_of_mem_drop hc)),
      List.take_append_drop, hval]
    have hl : (-(((digitsFixed 6 D).drop (X.toNat + 1)).length : Int)) = X - 5 := by
      rw [List.length_drop, hlen]
      omega
    rw [hl]
  · rename_i hA
    split
    · rename_i hB
      have e1 : ['0', '.'] ++ List.replicate ((-X).toNat - 1) '0' ++ digitsFixed 6 D
          = ['0'] ++ '.' :: (List.replicate ((-X).toNat - 1) '0' ++ digitsFixed 6 D) := by
        simp
      have e2 : ['0'] ++ (List.replicate ((-X).toNat - 1) '0' ++ digitsFixed 6 D)
          = List.replicate ((-X).toNat - 1 + 1) '0' ++ digitsFixed 6 D := by
        rw [List.replicate_succ]
        simp
      rw [e1, readDecimal_fixed neg ['0'] _ (by simp)
        (by
          intro c hc
          rw [List.mem_singleton.mp hc]
          decide)
        (by
          intro c hc
          rcases List.mem_append.mp hc with hc | hc
          · rw [(List.mem_replicate.mp hc).2]
            decide
          · exact hds c hc),
        e2, readNat_replicate_zero, hval]
      have hl : (-((List.replicate ((-X).toNat - 1) '0' ++ digitsFixed 6 D).length : Int))
          = X - 5 := by
        rw [List.length_append, List.length_replicate, hlen]
        omega
      rw [hl]
    · rename_i hB
      have e1 : (digitsFixed 6 D).take 1 ++ ['.'] ++ (digitsFixed 6 D).drop 1
            ++ ['e', if X < 0 then '-' else '+'] ++ expDigits X.natAbs
          = (digitsFixed 6 D).take 1 ++ '.' :: ((digitsFixed 6 D).drop 1
            ++ 'e' :: (if (!decide (X < 0)) = true then '+' else '-') :: expDigits X.natAbs) := by
        by_cases hX : X < 0 <;> simp [hX]
      rw [e1, readDecimal_exp neg (!decide (X < 0)) _ _ _ (by
        intro h
        have := congrArg List.length h
        simp [hlen] at this)
        (fun c hc => hds c (List.mem_of_mem_take hc))
        (fun c hc => hds c (List.mem_of_mem_drop hc))
        (expDigits_ne_nil _) (expDigits_isDigit _),
        List.take_append_drop, hval, readNat_expDigits]
      have hl : (-(((digitsFixed 6 D).drop 1).length : Int)) = -5 := by
        rw [List.length_drop, hlen]
        rfl
      have hx : (if (!decide (X < 0)) = true then (X.natAbs : Int) else -(X.natAbs : Int)) = X := by
        by_cases hX : X < 0
        · simp only [hX, decide_True, Bool.not_true, Bool.false_eq_true, if_false]
          omega
        · simp only [hX, decide_False, Bool.not_false, if_true]
          omega
      rw [hl, hx, mul_assoc, ← zpow_add₀ h10]
      congr 3
      ring

/-- The digits found by `decimal6` have at most six places. -/
theorem decimal6_lt (m : Nat) (e : Int) : (decimal6 m e).1 < 1000000 := by
  rcases Nat.eq_zero_or_pos m with hm | hm
  · subst hm
    simp [decimal6]
  · exact (decimal6_spec m e hm).2.1

/-- Reading the digits written for a finite double gives its rounded digits scaled
by their decimal exponent. -/
theorem readDecimal_showpointDigits (neg : Bool) (m : Nat) (e : Int) :
    readDecimal (signChars neg ++ showpointDigits m e)
      = some (signFactor neg * ((decimal6 m e).1 : ℚ) * (10 : ℚ) ^ ((decimal6 m e).2 - 5)) := by
  unfold showpointDigits
  split
  · rename_i hc
    rw [decimal6_of_carrySix m e hc]
    have h := readDecimal_exp neg true ['1'] [] ['0', '6'] (by simp) (by decide) (by simp)
      (by simp) (by decide)
    have e1 : readNat (['1'] ++ []) = 1 := by decide
    have e2 : readNat ['0', '6'] = 6 := by decide
    simp only [List.nil_append, if_true, e1, e2, List.length_nil] at h
    have h2 : readDecimal (signChars neg ++ ['1', '.', 'e', '+', '0', '6'])
        = some (signFactor neg * ((1 : Nat) : ℚ) * (10 : ℚ) ^ (-((0 : Nat) : Int))
          * (10 : ℚ) ^ ((6 : Nat) : Int)) := h
    rw [h2]
    congr 1
    norm_num
    ring
  · exact readDecimal_renderG neg _ _ (decimal6_lt m e)

/-- Reading the token of a finite double gives the double rounded to six digits. -/
theorem readDecimal_showpoint (x : Double) (hfin : x.isFinite = true) :
    readDecimal (showpoint x).data = some x.round6 := by
  cases x with
  | finite neg m e => exact readDecimal_showpointDigits neg m e
  | inf neg => exact absurd hfin (by simp [Double.isFinite])
  | nan neg => exact absurd hfin (by simp [Double.isFinite])

/-- Reading the tokens of finite doubles gives the doubles rounded to six digits. -/
theorem readDecimals_tokens (v : List Double) (hfin : ∀ x ∈ v, x.isFinite = true) :
    readDecimals ((v.map showpoint).map String.data) = some (v.map Double.round6) := by
  induction v with
  | nil => rfl
  | cons x xs ih =>
    have hx := readDecimal_showpoint x (hfin x (by simp))
    have hxs := ih (fun y hy => hfin y (by simp [hy]))
    simp only [List.map_cons, readDecimals, hx, hxs]

/-- Parsing the string form of a vector of finite doubles gives the vector rounded
to six significant digits. -/
theorem parseDoubleVector_getAsString (v : List Double)
    (hfin : ∀ x ∈ v, x.isFinite = true) :
    parseDoubleVector (ParamProxyBasic.ofList (Double.nan false) v).getAsString_double
      = some (v.map Double.round6) := by
  rw [getAsString_double_ofList]
  cases v with
  | nil => rfl
  | cons x xs =>
    have htok := double_tokens_ok (x :: xs)
    simp only [List.map_cons] at htok ⊢
    rw [parseDoubleVector, if_neg (intercalate_ne_empty _ _ (showpoint_data_ne_nil x)),
      splitOnSpace_intercalate _ _ (fun y hy => (htok y hy).1)]
    exact readDecimals_tokens (x :: xs) hfin

end DoubleParse

section DoubleValue

/-- The magnitude of a finite double. -/
theorem abs_toRat (neg : Bool) (m : Nat) (e : Int) :
    |(Double.finite neg m e).toRat| = (m : ℚ) * (2 : ℚ) ^ e := by
  have h2 : (0 : ℚ) ≤ (m : ℚ) * (2 : ℚ) ^ e :=
    mul_nonneg (Nat.cast_nonneg m) (le_of_lt (zpow_pos (by norm_num) _))
  cases neg
  · have e1 : (Double.finite false m e).toRat = (m : ℚ) * (2 : ℚ) ^ e := by
      simp [Double.toRat]
    rw [e1]
    exact abs_of_nonneg h2
  · have e1 : (Double.finite true m e).toRat = -((m : ℚ) * (2 : ℚ) ^ e) := by
      simp [Double.toRat]
    rw [e1, abs_neg]
    exact abs_of_nonneg h2

/-- The value of a finite double is zero exactly when its significand is. -/
theorem toRat_eq_zero_iff (neg : Bool) (m : Nat) (e : Int) :
    (Double.finite neg m e).toRat = 0 ↔ m = 0 := by
  rw [← abs_eq_zero, abs_toRat]
  have hp : (2 : ℚ) ^ e ≠ 0 := ne_of_gt (zpow_pos (by norm_num) _)
  simp [hp]

/-- The token of a finite double is in fixed-point notation exactly when the double
is zero or its magnitude lies in `[0.00009999995, 999999.5)`. -/
theorem isFixedPoint_showpoint_iff (neg : Bool) (m : Nat) (e : Int) :
    isFixedPoint (showpoint (Double.finite neg m e)).data = true ↔
      ((Double.finite neg m e).toRat = 0 ∨
        ((9999995 : ℚ) / 100000000000 ≤ |(Double.finite neg m e).toRat| ∧
          |(Double.finite neg m e).toRat| < (1999999 : ℚ) / 2)) := by
  have h := isFixedPoint_showpointDigits neg m e
  rw [toRat_eq_zero_iff, abs_toRat]
  show isFixedPoint (signChars neg ++ showpointDigits m e) = true ↔ _
  rw [h]
  rcases Nat.eq_zero_or_pos m with hm | hm
  · subst hm
    simp [decimal6]
  · have h1 := decimal6_exponent_ge_iff m e hm (-4)
    have h2 := decimal6_exponent_ge_iff m e hm 6
    have e1 : (1999999 : ℚ) / 2 * (10 : ℚ) ^ ((-4 : Int) - 6) = (9999995 : ℚ) / 100000000000 := by
      norm_num [zpow_neg]
    have e2 : (1999999 : ℚ) / 2 * (10 : ℚ) ^ ((6 : Int) - 6) = (1999999 : ℚ) / 2 := by
      norm_num
    rw [e1] at h1
    rw [e2] at h2
    have hm0 : m ≠ 0 := by omega
    constructor
    · intro hX
      refine Or.inr ⟨h1.mp hX.1, ?_⟩
      by_contra hc
      have := h2.mpr (not_lt.mp hc)
      omega
    · intro hv
      rcases hv with hv | hv
      · exact absurd hv hm0
      · refine ⟨h1.mpr hv.1, ?_⟩
        by_contra hc
        have := h2.mp (by omega)
        exact absurd hv.2 (not_lt.mpr this)

/-- The value written for a finite double is within half a unit of the sixth
significant digit of the double: for a magnitude below `10^(k+1)` the error is at
most half of `10^(k-5)`. -/
theorem round6_error_tight (neg : Bool) (m : Nat) (e : Int) (k : Int)
    (hk : |(Double.finite neg m e).toRat| < (10 : ℚ) ^ (k + 1)) :
    |(Double.finite neg m e).toRat - (Double.finite neg m e).round6|
      ≤ (10 : ℚ) ^ (k - 5) / 2 := by
  have hP : (0 : ℚ) < (10 : ℚ) ^ (k - 5) := zpow_pos (by norm_num) _
  rw [abs_toRat] at hk
  rcases Nat.eq_zero_or_pos m with hm | hm
  · subst hm
    simp only [Double.toRat, Double.round6, decimal6]
    simp only [if_true, Nat.cast_zero, mul_zero, zero_mul, sub_self, abs_zero]
    positivity
  · have h := decimal6_error_tight m e hm k hk
    have hs : |signFactor neg| = 1 := by
      cases neg <;> simp [signFactor]
    have e1 : (Double.finite neg m e).toRat - (Double.finite neg m e).round6
        = signFactor neg * ((m : ℚ) * (2 : ℚ) ^ e
          - ((decimal6 m e).1 : ℚ) * (10 : ℚ) ^ ((decimal6 m e).2 - 5)) := by
      simp only [Double.toRat, Double.round6, signFactor]
      cases neg <;> (simp; try ring)
    rw [e1, abs_mul, hs, one_mul]
    exact h

/-- The conversion `%#g` writes an exponent part exactly outside the exponents -4
to 5. -/
theorem exp_mem_renderG_iff (D : Nat) (X : Int) :
    'e' ∈ renderG D X ↔ ¬ (-4 ≤ X ∧ X < 6) := by
  obtain ⟨A, B, hAB, _, hA, hfix, hexp⟩ := renderG_shape D X
  have hAe : 'e' ∉ A := not_mem_of_all_isDigit A hA 'e' (by decide)
  rw [hAB]
  constructor
  · intro hmem hX
    have hBe : 'e' ∉ B := not_mem_of_all_isDigit B (hfix hX) 'e' (by decide)
    rcases List.mem_append.mp hmem with h | h
    · exact hAe h
    · rcases List.mem_cons.mp h with h | h
      · revert h
        decide
      · exact hBe h
  · intro hX
    obtain ⟨B1, B2, hB, _, _⟩ := hexp hX
    rw [hB]
    simp

/-- The token of a finite double has an exponent part exactly when it is not in
fixed-point notation. -/
theorem exp_mem_showpoint_iff (neg : Bool) (m : Nat) (e : Int) :
    'e' ∈ (showpoint (Double.finite neg m e)).data ↔
      isFixedPoint (showpoint (Double.finite neg m e)).data = false := by
  have hfix := isFixedPoint_showpointDigits neg m e
  have hs : 'e' ∉ signChars neg := by
    cases neg <;> decide
  have hmem : 'e' ∈ (showpoint (Double.finite neg m e)).data ↔
      ¬ (-4 ≤ (decimal6 m e).2 ∧ (decimal6 m e).2 < 6) := by
    show 'e' ∈ signChars neg ++ showpointDigits m e ↔ _
    rw [List.mem_append]
    unfold showpointDigits
    split
    · rename_i hc
      rw [decimal6_of_carrySix m e hc]
      constructor
      · intro _ h
        exact absurd h.2 (by decide)
      · intro _
        exact Or.inr (by decide)
    · rw [← exp_mem_renderG_iff]
      constructor
      · intro h
        rcases h with h | h
        · exact absurd h hs
        · exact h
      · exact fun h => Or.inr h
  rw [hmem]
  show _ ↔ isFixedPoint (signChars neg ++ showpointDigits m e) = false
  rw [← hfix]
  cases isFixedPoint (signChars neg ++ showpointDigits m e) <;> simp

/-- The carry out of six integer digits happens exactly for the magnitudes in
`[999999.5, 10^6)`. -/
theorem carrySix_iff (m : Nat) (e : Int) :
    carrySix m e = true ↔
      ((1999999 : ℚ) / 2 ≤ (m : ℚ) * (2 : ℚ) ^ e ∧ (m : ℚ) * (2 : ℚ) ^ e < 1000000) := by
  have h10 : (1 : ℚ) < 10 := by norm_num
  have hden : 0 < 2 ^ (-e).toNat := Nat.pow_pos (by decide)
  simp only [carrySix, Bool.and_eq_true, decide_eq_true_eq]
  constructor
  · rintro ⟨⟨hm, hX⟩, hD⟩
    have hnum : 0 < m * 2 ^ e.toNat := Nat.mul_pos (by omega) (Nat.pow_pos (by decide))
    obtain ⟨_, b2, b3⟩ := scaleRound_bounds _ _ hnum hden
    rw [mant_scale, hX] at b2 b3
    simp only [sub_self, zpow_zero, mul_one] at b2 b3
    exact ⟨b3.mp hD, b2⟩
  · rintro ⟨hlo, hhi⟩
    have hm : m ≠ 0 := by
      intro h
      subst h
      norm_num at hlo
    have hnum : 0 < m * 2 ^ e.toNat := Nat.mul_pos (by omega) (Nat.pow_pos (by decide))
    obtain ⟨b1, b2, b3⟩ := scaleRound_bounds _ _ hnum hden
    rw [mant_scale] at b1 b2 b3
    have hX : decExponent (m * 2 ^ e.toNat) (2 ^ (-e).toNat) = 5 := by
      generalize decExponent (m * 2 ^ e.toNat) (2 ^ (-e).toNat) = X at b1 b2
      have e1 : (100000 : ℚ) * (10 : ℚ) ^ (X - 5) = (10 : ℚ) ^ X := by
        rw [show X = 5 + (X - 5) by ring, zpow_add₀ (by norm_num : (10 : ℚ) ≠ 0)]
        norm_num
      have e2 : (1000000 : ℚ) * (10 : ℚ) ^ (X - 5) = (10 : ℚ) ^ (X + 1) := by
        rw [show X + 1 = 6 + (X - 5) by ring, zpow_add₀ (by norm_num : (10 : ℚ) ≠ 0)]
        norm_num
      rw [e1] at b1
      rw [e2] at b2
      have h6 : (10 : ℚ) ^ X < (10 : ℚ) ^ (6 : Int) := by
        refine lt_of_le_of_lt b1 (lt_of_lt_of_le hhi ?_)
        norm_num
      have h5 : (10 : ℚ) ^ (5 : Int) < (10 : ℚ) ^ (X + 1) := by
        refine lt_of_le_of_lt ?_ (lt_of_le_of_lt hlo b2)
        norm_num
      have := (zpow_lt_zpow_iff_right₀ h10).mp h6
      have := (zpow_lt_zpow_iff_right₀ h10).mp h5
      omega
    refine ⟨⟨hm, hX⟩, ?_⟩
    rw [hX] at b3
    simp only [sub_self, zpow_zero, mul_one] at b3
    exact b3.mpr hlo

end DoubleValue

section DoubleClaims

/-- C7, the claim refuted: the finite binary64 values `10^10` and the double nearest
to `10^-5`, held by parameters of size 1, are written `1.00000e+10` and
`1.00000e-05`, with an exponent part, which is not fixed-point notation. -/
theorem getAsString_double_exponent_part :
    (Double.finite false 10000000000 0).isBinary64 = true ∧
      (Double.finite false 10000000000 0).toRat = 10 ^ 10 ∧
      (Double.finite false 5902958103587057 (-69)).isBinary64 = true ∧
      |(Double.finite false 5902958103587057 (-69)).toRat - 1 / 100000| ≤ 1 / 2 ^ 70 ∧
      (ParamProxyBasic.ofList (Double.nan false)
          [Double.finite false 10000000000 0]).getAsString_double = "1.00000e+10" ∧
      (ParamProxyBasic.ofList (Double.nan false)
          [Double.finite false 5902958103587057 (-69)]).getAsString_double = "1.00000e-05" ∧
      isFixedPoint (ParamProxyBasic.ofList (Double.nan false)
          [Double.finite false 10000000000 0]).getAsString_double.data = false ∧
      isFixedPoint (ParamProxyBasic.ofList (Double.nan false)
          [Double.finite false 5902958103587057 (-69)]).getAsString_double.data = false := by
  refine ⟨by decide, ?_, by decide, ?_, by decide, by decide, by decide, by decide⟩
  · norm_num [Double.toRat]
  · norm_num [Double.toRat, abs_le]

/-- C7 as amended: for a double parameter of size `n ≥ 1` with finite values,
`getAsString` is the `n` tokens of `value[0] .. value[n-1]`, in index order, joined
by single spaces; every token has exactly one decimal point (and no space), also
for an integral value (3 is written `3.00000`); a token is in fixed-point notation
exactly when the value is zero or its magnitude lies in `[0.00009999995, 999999.5)`,
and it has an exponent part exactly when it is not in fixed-point notation (1e10 is
written `1.00000e+10`, 1e-5 `1.00000e-05`, and 999999.5, whose rounding carries into
a seventh integer digit, `1.e+06`). -/
theorem getAsString_double_tokens (p : ParamProxyBasic Double) (hn : 1 ≤ p.size)
    (hfin : ∀ x ∈ p.values, x.isFinite = true) :
    p.getAsString_double = " ".intercalate (p.values.map showpoint) ∧
      p.values.length = p.size.toNat ∧
      (∀ x ∈ p.values, (showpoint x).data.count '.' = 1 ∧ ' ' ∉ (showpoint x).data) ∧
      (∀ x ∈ p.values,
        (isFixedPoint (showpoint x).data = true ↔
          (x.toRat = 0 ∨
            ((9999995 : ℚ) / 100000000000 ≤ |x.toRat| ∧ |x.toRat| < (1999999 : ℚ) / 2))) ∧
        ('e' ∈ (showpoint x).data ↔ isFixedPoint (showpoint x).data = false)) ∧
      showpoint (Double.finite false 3 0) = "3.00000" ∧
      showpoint (Double.finite false 10000000000 0) = "1.00000e+10" ∧
      showpoint (Double.finite false 5902958103587057 (-69)) = "1.00000e-05" ∧
      showpoint (Double.finite false 1999999 (-1)) = "1.e+06" := by
  refine ⟨getAsString_double_eq p hn, values_length p, ?_, ?_, by decide, by decide,
    by decide, by decide⟩
  · intro x hx
    exact ⟨(showpoint_point_space x).1 (hfin x hx), (showpoint_point_space x).2⟩
  · intro x hx
    have hf := hfin x hx
    cases x with
    | finite neg m e =>
      exact ⟨isFixedPoint_showpoint_iff neg m e, exp_mem_showpoint_iff neg m e⟩
    | inf neg => exact absurd hf (by simp [Double.isFinite])
    | nan neg => exact absurd hf (by simp [Double.isFinite])

/-- Witness of C7 as amended: the vector `3.0, 1e10`. -/
theorem getAsString_double_tokens_witness :
    (ParamProxyBasic.ofList (Double.nan false)
        [Double.finite false 3 0, Double.finite false 10000000000 0]).getAsString_double
      = "3.00000 1.00000e+10" :=
  (getAsString_double_tokens
    (ParamProxyBasic.ofList (Double.nan false)
      [Double.finite false 3 0, Double.finite false 10000000000 0])
    (by decide) (by decide)).1.trans (by decide)

/-- C8, the claim refuted: the binary64 values 1.0 and the double nearest to
1.0000001 differ, yet the two vectors of size 1 holding them have the same string
form, `1.00000`. -/
theorem getAsString_double_not_injective :
    (Double.finite false 4503599627370496 (-52)).isBinary64 = true ∧
      (Double.finite false 4503600077730459 (-52)).isBinary64 = true ∧
      (Double.finite false 4503599627370496 (-52)).toRat = 1 ∧
      |(Double.finite false 4503600077730459 (-52)).toRat - 10000001 / 10000000|
        ≤ 1 / 2 ^ 53 ∧
      (Double.finite false 4503600077730459 (-52)).toRat
        ≠ (Double.finite false 4503599627370496 (-52)).toRat ∧
      (ParamProxyBasic.ofList (Double.nan false)
          [Double.finite false 4503599627370496 (-52)]).getAsString_double = "1.00000" ∧
      (ParamProxyBasic.ofList (Double.nan false)
          [Double.finite false 4503600077730459 (-52)]).getAsString_double = "1.00000" := by
  refine ⟨by decide, by decide, ?_, ?_, ?_, by decide, by decide⟩
  · norm_num [Double.toRat]
  · norm_num [Double.toRat, abs_le]
  · norm_num [Double.toRat]

/-- C8 as amended: round trip for double up to six significant digits. For every
vector `v` of finite doubles, the empty one included, parsing the string produced
by `getAsString` gives `v` with every element replaced by the value written for it,
which is within half a unit of the sixth significant digit of the element (for a
magnitude below `10^(k+1)`, within half of `10^(k-5)`) and has six significant
digits (`D * 10^(X-5)` with `10^5 ≤ D < 10^6` for a non-zero element); and two
vectors serialize to the same string exactly when they have the same size and,
element by element, the same token, which two different vectors can (1.0 and the
double nearest 1.0000001 are both written `1.00000`). -/
theorem getAsString_double_round_trip_six_digits (v : List Double)
    (hfin : ∀ x ∈ v, x.isFinite = true) :
    parseDoubleVector (ParamProxyBasic.ofList (Double.nan false) v).getAsString_double
        = some (v.map Double.round6) ∧
      (∀ x ∈ v, ∀ k : Int, |x.toRat| < (10 : ℚ) ^ (k + 1) →
        |x.toRat - x.round6| ≤ (10 : ℚ) ^ (k - 5) / 2) ∧
      (∀ (neg : Bool) (m : Nat) (e : Int),
        (Double.finite neg (m + 1) e).round6
            = signFactor neg * ((decimal6 (m + 1) e).1 : ℚ)
              * (10 : ℚ) ^ ((decimal6 (m + 1) e).2 - 5) ∧
          100000 ≤ (decimal6 (m + 1) e).1 ∧ (decimal6 (m + 1) e).1 < 1000000) ∧
      (∀ w : List Double,
        (ParamProxyBasic.ofList (Double.nan false) v).getAsString_double
            = (ParamProxyBasic.ofList (Double.nan false) w).getAsString_double
          ↔ (v.length = w.length ∧ v.map showpoint = w.map showpoint)) ∧
      ((Double.finite false 4503599627370496 (-52)).toRat
          ≠ (Double.finite false 4503600077730459 (-52)).toRat ∧
        (ParamProxyBasic.ofList (Double.nan false)
            [Double.finite false 4503599627370496 (-52)]).getAsString_double
          = (ParamProxyBasic.ofList (Double.nan false)
            [Double.finite false 4503600077730459 (-52)]).getAsString_double) := by
  refine ⟨parseDoubleVector_getAsString v hfin, ?_, ?_, ?_,
    ⟨by norm_num [Double.toRat], by decide⟩⟩
  · intro x hx k hk
    have hf := hfin x hx
    cases x with
    | finite neg m e => exact round6_error_tight neg m e k hk
    | inf neg => exact absurd hf (by simp [Double.isFinite])
    | nan neg => exact absurd hf (by simp [Double.isFinite])
  · intro neg m e
    exact ⟨rfl, (decimal6_spec (m + 1) e (Nat.succ_pos m)).1,
      (decimal6_spec (m + 1) e (Nat.succ_pos m)).2.1⟩
  · intro w
    rw [getAsString_double_same_iff]
    constructor
    · intro h
      refine ⟨?_, h⟩
      have := congrArg List.length h
      simpa using this
    · exact fun h => h.2

/-- Witness of C8 as amended: the vector `1.0, 1e10`. -/
theorem getAsString_double_round_trip_six_digits_witness :
    parseDoubleVector (ParamProxyBasic.ofList (Double.nan false)
        [Double.finite false 4503599627370496 (-52),
          Double.finite false 10000000000 0]).getAsString_double
      = some ([Double.finite false 4503599627370496 (-52),
          Double.finite false 10000000000 0].map Double.round6) :=
  (getAsString_double_round_trip_six_digits
    [Double.finite false 4503599627370496 (-52), Double.finite false 10000000000 0]
    (by decide)).1

end DoubleClaims

end paramHelp
